import Mathlib

/-!
# Verification of the PIVX consensus-validation core (src/validation.cpp)

A shallow embedding of the validation core of the repository: the UTXO
("coin view") state transitions performed by `ConnectBlock` / `DisconnectBlock`,
the reward schedule `GetBlockValue`, the input checks `Consensus::CheckTxInputs`,
the mempool admission gates of `AcceptToMemoryPoolWorker`, the best-chain
comparator and `FindMostWorkChain`, the duplicate-block guard of `AcceptBlock`,
the ancestor-skip structure `CBlockIndex::GetAncestor` / `BuildSkip`, and the
reorganization step `ActivateBestChainStep`.

Machine integers: all C++ `CAmount` (int64_t) and height (`int`) values are
modelled as `Int`; no arithmetic in the modelled paths approaches 2^63, and
the source treats overflow of amounts via the explicit `MoneyRange` checks
that are carried over verbatim.

The coin view itself (`CCoinsViewCache`, coins.cpp) is not part of the given
sources; it is modelled from the spec's Coin View contract (§6):
`get(outpoint) -> Option<CoinRecord>`, `put`, `remove`, `best_block`,
`set_best_block`, i.e. a finite map plus a best-block pointer.
-/

/-- `COIN` (util/amount): number of upiv units in one PIV. -/
def COIN : Int := 100000000

/-- An output reference: (transaction id, output index).  Transaction ids
(uint256 hashes) are abstracted to `Nat`. -/
structure OutPoint where
  hash : Nat
  n : Nat
deriving DecidableEq, Repr

/-- A transaction output: value plus spending script.  Scripts are abstracted
to an identifier together with the two predicates of them that the modelled
validation paths consult (`IsUnspendable`, `IsZerocoinMint`). -/
structure CTxOut where
  nValue : Int
  scriptPubKey : Nat
  isUnspendable : Bool
  isZerocoinMint : Bool
deriving DecidableEq, Repr

/-- An unspent-coin record (`Coin`, coins.h): the output, its creation height,
and the coinbase/coinstake flags. -/
structure Coin where
  out : CTxOut
  nHeight : Int
  fCoinBase : Bool
  fCoinStake : Bool
deriving DecidableEq, Repr

/-- A transaction input: the referenced prevout.  (Script signatures play no
role in the modelled non-script validation paths.) -/
structure CTxIn where
  prevout : OutPoint
deriving DecidableEq, Repr

/-- A transaction, reduced to the data the modelled validation paths read:
its id, inputs, outputs, and the coinbase / coinstake / zerocoin-spend
classification flags (in the source these are derived from the shape of
`vin`/`vout`; here they are carried as fields and constrained by hypotheses
where a claim needs their defining properties). -/
structure Tx where
  txid : Nat
  vin : List CTxIn
  vout : List CTxOut
  isCoinBase : Bool
  isCoinStake : Bool
  hasZerocoinSpendInputs : Bool
deriving DecidableEq, Repr

/-- Sum of the output values: `CTransaction::GetValueOut`. -/
def Tx.getValueOut (tx : Tx) : Int :=
  (tx.vout.map (fun o => o.nValue)).sum

/-- Modelled from the spec: the Coin View contract of §6 (`get`, `put`,
`remove`, `best_block`, `set_best_block`); `CCoinsViewCache` (coins.cpp) is
not among the given sources.  A finite map from outpoint to coin record plus
the best-block pointer (block hashes abstracted to `Nat`). -/
structure CoinsView where
  coins : OutPoint → Option Coin
  bestBlock : Nat

/-- `CCoinsViewCache::HaveCoin`. -/
def CoinsView.haveCoin (v : CoinsView) (o : OutPoint) : Bool :=
  (v.coins o).isSome

/-- Modelled from the spec: `put(outpoint, CoinRecord)` of the Coin View
contract (`CCoinsViewCache::AddCoin` without the unspendable-output filter,
which the caller `AddCoins` applies below). -/
def CoinsView.addCoin (v : CoinsView) (o : OutPoint) (c : Coin) : CoinsView :=
  { v with coins := fun o' => if o' = o then some c else v.coins o' }

/-- Modelled from the spec: `remove(outpoint) -> CoinRecord` of the Coin View
contract (`CCoinsViewCache::SpendCoin`): the record is taken out of the map
and handed back to the caller (the undo record). -/
def CoinsView.spendCoin (v : CoinsView) (o : OutPoint) : CoinsView × Option Coin :=
  ({ v with coins := fun o' => if o' = o then none else v.coins o' }, v.coins o)

/-- `CCoinsViewCache::SetBestBlock`. -/
def CoinsView.setBestBlock (v : CoinsView) (h : Nat) : CoinsView :=
  { v with bestBlock := h }

/-- `CCoinsViewCache::HaveInputs`: every input's prevout is present. -/
def CoinsView.haveInputs (v : CoinsView) (tx : Tx) : Bool :=
  tx.vin.all (fun i => v.haveCoin i.prevout)

/-- `CCoinsViewCache::GetValueIn`: sum of the values of the coins referenced
by the inputs (0 for missing coins, which the callers exclude beforehand via
`HaveInputs`). -/
def CoinsView.getValueIn (v : CoinsView) (tx : Tx) : Int :=
  (tx.vin.map (fun i => match v.coins i.prevout with
    | some c => c.out.nValue
    | none => 0)).sum

/-- The output that a coin for `tx.vout[i]` records: `Coin(tx.vout[i], nHeight,
fCoinbase, fCoinstake)` as constructed by `AddCoins`. -/
def mkCoin (o : CTxOut) (nHeight : Int) (fCoinBase fCoinStake : Bool) : Coin :=
  { out := o, nHeight := nHeight, fCoinBase := fCoinBase, fCoinStake := fCoinStake }

/-- `AddCoins(cache, tx, nHeight)` (coins.cpp, not among the given sources):
adds a coin for each output of `tx` at the given height.  Modelled from the
spec's Coin View contract, with the skip condition for outputs that never
enter the view taken from the in-source inverse `DisconnectBlock`
(validation.cpp:1323), which skips exactly the outputs with
`scriptPubKey.IsUnspendable()` or `IsZerocoinMint()`. -/
def addCoins (v : CoinsView) (tx : Tx) (nHeight : Int) : CoinsView :=
  (tx.vout.enum).foldl
    (fun acc oi =>
      if oi.2.isUnspendable || oi.2.isZerocoinMint then acc
      else acc.addCoin ⟨tx.txid, oi.1⟩ (mkCoin oi.2 nHeight tx.isCoinBase tx.isCoinStake))
    v

/-- Undo data of one transaction (`CTxUndo`): the spent coins of its inputs, in
input order.  `none` records an input whose prevout was absent when spent (the
source stores a default `Coin` there, i.e. a spent marker). -/
abbrev TxUndo := List (Option Coin)

/-- `UpdateCoins(tx, inputs, txundo, nHeight)` (validation.cpp:943): mark the
inputs spent (collecting the undo records) unless the transaction is a
coinbase or has zerocoin spend inputs, then add the outputs. -/
def updateCoins (tx : Tx) (v : CoinsView) (nHeight : Int) : CoinsView × TxUndo :=
  let (v1, undo) :=
    if !tx.isCoinBase && !tx.hasZerocoinSpendInputs then
      tx.vin.foldl
        (fun acc txin =>
          let (v', c) := acc.1.spendCoin txin.prevout
          (v', acc.2 ++ [c]))
        (v, ([] : TxUndo))
    else (v, ([] : TxUndo))
  (addCoins v1 tx nHeight, undo)

/-!
## The reward schedule: `GetBlockValue` (validation.cpp:760)

Network selection (`Params()`) is abstracted to the three network kinds; the
`UPGRADE_ZC_V2` mainnet activation height is a parameter (it lives in
chainparams.cpp, outside the given sources). -/

inductive Network where
  | MAIN
  | TESTNET
  | REGTEST
deriving DecidableEq, Repr

/-- `GetBlockValue(nHeight)` (validation.cpp:760): the height-indexed block
reward schedule.  `zcV2MainnetHeight` stands for
`Params().GetConsensus().vUpgrades[Consensus::UPGRADE_ZC_V2].nActivationHeight`. -/
def GetBlockValue (net : Network) (zcV2MainnetHeight : Int) (nHeight : Int) : Int :=
  if net = Network.REGTEST then 250 * COIN
  else
    let isTestnet := net = Network.TESTNET
    if isTestnet ∧ nHeight < 201 ∧ nHeight > 1 then 250000 * COIN
    else
      let nLast : Int := if isTestnet then 648000 else zcV2MainnetHeight
      if nHeight > nLast then 5 * COIN
      else if nHeight > 648000 then 9 * COIN / 2
      else if nHeight > 604800 then 9 * COIN
      else if nHeight > 561600 then 27 * COIN / 2
      else if nHeight > 518400 then 18 * COIN
      else if nHeight > 475200 then 45 * COIN / 2
      else if nHeight > 432000 then 27 * COIN
      else if nHeight > 388800 then 63 * COIN / 2
      else if nHeight > 345600 then 36 * COIN
      else if nHeight > 302400 then 81 * COIN / 2
      else
        let nSecond : Int := if isTestnet then 145000 else 151200
        if nHeight > nSecond then 45 * COIN
        else if nHeight > 86400 then 225 * COIN
        else if nHeight ≠ 1 then 250 * COIN
        else 60001 * COIN

example : GetBlockValue Network.MAIN 1050000 1 = 60001 * COIN := by decide
example : GetBlockValue Network.MAIN 1050000 2 = 250 * COIN := by decide
example : GetBlockValue Network.MAIN 1050000 700000 = 9 * COIN / 2 := by decide
example : GetBlockValue Network.MAIN 1050000 620000 = 9 * COIN := by decide
example : GetBlockValue Network.MAIN 1050000 2000000 = 5 * COIN := by decide

/-!
## Consensus parameters and transaction input checks
-/

/-- The consensus parameters the modelled paths read (chainparams.cpp is not
among the given sources; these are opaque parameters here). -/
structure ConsensusParams where
  nCoinbaseMaturity : Int
  nMaxMoneyOut : Int
  hashGenesisBlock : Nat
deriving Repr

/-- `Consensus::Params::MoneyRange` (consensus/params.h): a value is monetary
iff it is non-negative and at most `nMaxMoneyOut`. -/
def moneyRange (params : ConsensusParams) (nValue : Int) : Bool :=
  0 ≤ nValue && nValue ≤ params.nMaxMoneyOut

/-- The per-input loop of `Consensus::CheckTxInputs` (validation.cpp:1055):
maturity of coinbase/coinstake coins and input-value range checks,
accumulating `nValueIn`.  The `assert(!coin.IsSpent())` after `HaveInputs`
is modelled as the (unreachable) error `"assert-coin-spent"`. -/
def checkTxInputsLoop (params : ConsensusParams) (view : CoinsView) (nSpendHeight : Int) :
    List CTxIn → Int → Except String Int
  | [], nValueIn => .ok nValueIn
  | txin :: rest, nValueIn =>
    match view.coins txin.prevout with
    | none => .error "assert-coin-spent"
    | some coin =>
      if (coin.fCoinBase || coin.fCoinStake) &&
          decide (nSpendHeight - coin.nHeight < params.nCoinbaseMaturity) then
        .error "bad-txns-premature-spend-of-coinbase-coinstake"
      else
        let nValueIn' := nValueIn + coin.out.nValue
        if !(moneyRange params coin.out.nValue && moneyRange params nValueIn') then
          .error "bad-txns-inputvalues-outofrange"
        else
          checkTxInputsLoop params view nSpendHeight rest nValueIn'

/-- `Consensus::CheckTxInputs` (validation.cpp:1045).  Errors carry the
source's reject-reason tag; the `HaveInputs` failure sets an empty reason
(its text "Inputs unavailable" is only a debug message), modelled as the
tag `"inputs-unavailable"` for readability. -/
def checkTxInputs (params : ConsensusParams) (tx : Tx) (view : CoinsView)
    (nSpendHeight : Int) : Except String Unit :=
  if !(view.haveInputs tx) then .error "inputs-unavailable"
  else
    match checkTxInputsLoop params view nSpendHeight tx.vin 0 with
    | .error e => .error e
    | .ok nValueIn =>
      if !tx.isCoinStake then
        if nValueIn < tx.getValueOut then .error "bad-txns-in-belowout"
        else
          let nTxFee := nValueIn - tx.getValueOut
          if nTxFee < 0 then .error "bad-txns-fee-negative"
          else if !(moneyRange params nTxFee) then .error "bad-txns-fee-outofrange"
          else .ok ()
      else .ok ()

/-- The non-script prefix of `CheckInputs` (validation.cpp:1090-1095): for
transactions that are neither coinbase nor zerocoin spends, run
`Consensus::CheckTxInputs`; script verification (offloaded to the script
check queue) is outside this embedding. -/
def checkInputsNonScript (params : ConsensusParams) (tx : Tx) (view : CoinsView)
    (nSpendHeight : Int) : Except String Unit :=
  if !tx.isCoinBase && !tx.hasZerocoinSpendInputs then
    checkTxInputs params tx view nSpendHeight
  else .ok ()

/-!
## ConnectBlock (validation.cpp:1408) — coin, fee and reward-schedule core

The embedding covers the `fJustCheck = false`, `fAlreadyChecked = true` path
restricted to the state transition on the coin view and the value accounting:
the zerocoin spend/mint bookkeeping, sigop counting, script verification,
special-transaction payloads and all disk writes are outside it (a
transaction with zerocoin spend inputs makes the embedded function fail with
`"zerocoin-out-of-scope"`; the claims' hypotheses exclude such blocks, and the
spec places legacy privacy bookkeeping out of scope).
-/

/-- A block, reduced to what the modelled `ConnectBlock`/`DisconnectBlock`
paths read.  `isProofOfStake` stands for `CBlock::IsProofOfStake()` (derived
in the source from the block's shape); `IsProofOfWork()` is its negation. -/
structure Block where
  hashBlock : Nat
  hashPrevBlock : Nat
  vtx : List Tx
  isProofOfStake : Bool
deriving Repr

def Block.isProofOfWork (b : Block) : Bool := !b.isProofOfStake

/-- Modelled from the spec: `IsBlockValueValid` is implemented in
masternode-payments.cpp, which is not among the given sources (only its
declaration in masternode-payments.h and the call site at
validation.cpp:1613 are).  Per the spec §4.1, the block's total newly-minted
value "must equal the height-indexed reward schedule exactly — any positive
or negative deviation is a fatal reject". -/
def IsBlockValueValid (nExpectedValue nMinted : Int) : Bool :=
  nMinted = nExpectedValue

/-- Accumulator of the per-transaction loop of `ConnectBlock`
(validation.cpp:1476-1598): the mutating coin view, the fee, input-value and
output-value tallies, and the collected undo data (`blockundo.vtxundo`; the
coinbase's undo goes to `undoDummy` and is dropped). -/
structure ConnAcc where
  view : CoinsView
  nFees : Int
  nValueIn : Int
  nValueOut : Int
  undos : List TxUndo

/-- The per-transaction loop of `ConnectBlock` (validation.cpp:1476-1598),
restricted to coin-view mutation and value accounting: input availability
(line 1549), the non-script input checks shared with the mempool
(`CheckInputs` → `Consensus::CheckTxInputs`, line 1584), fee and value
tallies (lines 1575-1588), and `UpdateCoins` (line 1594).  `i` is the
transaction's position in the block. -/
def connectTxLoop (params : ConsensusParams) (nHeight : Int) :
    List Tx → Nat → ConnAcc → Except String ConnAcc
  | [], _, acc => .ok acc
  | tx :: rest, i, acc =>
    if tx.hasZerocoinSpendInputs then .error "zerocoin-out-of-scope"
    else
      let inputsOk : Except String Unit :=
        if !tx.isCoinBase then
          if !(acc.view.haveInputs tx) then .error "bad-txns-inputs-missingorspent"
          else checkInputsNonScript params tx acc.view nHeight
        else .ok ()
      match inputsOk with
      | .error e => .error e
      | .ok _ =>
        let nFees' := if !tx.isCoinBase && !tx.isCoinStake then
            acc.nFees + (acc.view.getValueIn tx - tx.getValueOut) else acc.nFees
        let nValueIn' := if !tx.isCoinBase then
            acc.nValueIn + acc.view.getValueIn tx else acc.nValueIn
        let nValueOut' := acc.nValueOut + tx.getValueOut
        let (view', undo) := updateCoins tx acc.view nHeight
        let undos' := if i == 0 then acc.undos else acc.undos ++ [undo]
        connectTxLoop params nHeight rest (i + 1)
          { view := view', nFees := nFees', nValueIn := nValueIn',
            nValueOut := nValueOut', undos := undos' }

/-- `ConnectBlock` (validation.cpp:1408), coin/value core: the
previous-block assertion (line 1426), the genesis special case (lines
1430-1436), the PoS/PoW period checks (lines 1438-1445), the
per-transaction loop, the minted-value check against the reward schedule
(lines 1600-1617, reject tag `"bad-cb-amount"`), and the final best-block
update (line 1695).  Returns the updated view and the block's undo data. -/
def connectBlock (params : ConsensusParams) (net : Network) (zcV2MainnetHeight : Int)
    (isPoSActive : Bool) (block : Block) (nHeight : Int) (prevHash : Nat)
    (view : CoinsView) : Except String (CoinsView × List TxUndo) :=
  if prevHash ≠ view.bestBlock then .error "assert-prev-block-mismatch"
  else if block.hashBlock = params.hashGenesisBlock then
    .ok (view.setBestBlock block.hashBlock, [])
  else if !isPoSActive && block.isProofOfStake then .error "PoS-early"
  else if isPoSActive && block.isProofOfWork then .error "PoW-ended"
  else
    match connectTxLoop params nHeight block.vtx 0
        { view := view, nFees := 0, nValueIn := 0, nValueOut := 0, undos := [] } with
    | .error e => .error e
    | .ok acc =>
      let nMint := (acc.nValueOut - acc.nValueIn) + acc.nFees
      let nExpectedMint := GetBlockValue net zcV2MainnetHeight nHeight +
        (if block.isProofOfWork then acc.nFees else 0)
      if !(IsBlockValueValid nExpectedMint nMint) then .error "bad-cb-amount"
      else .ok (acc.view.setBestBlock block.hashBlock, acc.undos)

/-!
## DisconnectBlock (validation.cpp:1270)

The embedding covers the coin-view inverse: removing the block's outputs
(checking them against the block), restoring the spent inputs from the undo
records, and rewinding the best-block pointer.  Undo data is passed in
directly (the on-disk round trip `UndoWriteToDisk`/`UndoReadFromDisk` and its
I/O failure modes, the zPIV-supply tracking and the special-transaction undo
are outside the embedding; the latter two do not touch the coin view).
-/

inductive DisconnectResult where
  | DISCONNECT_OK
  | DISCONNECT_UNCLEAN
  | DISCONNECT_FAILED
deriving DecidableEq, Repr

/-- `AccessByTxid(view, txid)` (coins.cpp, not among the given sources;
modelled from its use at validation.cpp:1253): the first unspent coin among
the outputs `(txid, 0) .. (txid, MAX_OUTPUTS_PER_BLOCK - 1)`.  The bound is
the source's `MAX_OUTPUTS_PER_BLOCK`. -/
def accessByTxid (view : CoinsView) (txid : Nat) (maxOutputsPerBlock : Nat) : Option Coin :=
  (List.range maxOutputsPerBlock).findSome? (fun n => view.coins ⟨txid, n⟩)

/-- `ApplyTxInUndo(undo, view, out)` (validation.cpp:1243): restore a spent
coin.  An overwritten output makes the result `DISCONNECT_UNCLEAN`; missing
metadata (`nHeight == 0`) is recovered from an alternate unspent output of
the same transaction or fails.  A `none` undo record (a spent-marker default
`Coin`, which carries no output data) is modelled as `DISCONNECT_FAILED`:
in the source that path either fails the same way (no alternate) or trips
the `assert(!coin.IsSpent())` of `AddCoin`. -/
def applyTxInUndo (undo : Option Coin) (view : CoinsView) (out : OutPoint)
    (maxOutputsPerBlock : Nat) : DisconnectResult × CoinsView :=
  let fClean := !(view.haveCoin out)
  let resolved : Option Coin :=
    match undo with
    | some c =>
      if c.nHeight = 0 then
        match accessByTxid view out.hash maxOutputsPerBlock with
        | some alt => some { c with nHeight := alt.nHeight, fCoinBase := alt.fCoinBase,
                                    fCoinStake := alt.fCoinStake }
        | none => none
      else some c
    | none => none
  match resolved with
  | none => (.DISCONNECT_FAILED, view)
  | some c =>
    ((if fClean then .DISCONNECT_OK else .DISCONNECT_UNCLEAN), view.addCoin out c)

/-- The default `CTxOut` (`nValue = -1`, empty script) against which the
source's output comparison sees a missing coin. -/
def defaultTxOut : CTxOut := { nValue := -1, scriptPubKey := 0,
                               isUnspendable := false, isZerocoinMint := false }

/-- The output-removal loop of `DisconnectBlock` (validation.cpp:1322-1331):
spend each output of the transaction that is neither unspendable nor a
zerocoin mint, in output order, and compare the removed coin against the
block's own output (a mismatch or a missing coin is merely unclean). -/
def disconnectOutputs (txid : Nat) : List (Nat × CTxOut) → CoinsView → Bool → CoinsView × Bool
  | [], v, clean => (v, clean)
  | (o, out) :: rest, v, clean =>
    if out.isUnspendable || out.isZerocoinMint then disconnectOutputs txid rest v clean
    else
      let (v', copt) := v.spendCoin ⟨txid, o⟩
      let removedOut := (copt.map (fun c => c.out)).getD defaultTxOut
      disconnectOutputs txid rest v' (clean && decide (out = removedOut))

/-- The input-restoration loop of `DisconnectBlock` (validation.cpp:1344-1349):
apply the undo records in reverse input order; `DISCONNECT_FAILED` aborts,
`DISCONNECT_UNCLEAN` clears the clean flag.  The argument list is
`(tx.vin.zip txundo).reverse`. -/
def restoreInputs (maxOutputsPerBlock : Nat) :
    List (CTxIn × Option Coin) → CoinsView → Bool → Except Unit (CoinsView × Bool)
  | [], v, clean => .ok (v, clean)
  | (txin, undo) :: rest, v, clean =>
    match applyTxInUndo undo v txin.prevout maxOutputsPerBlock with
    | (.DISCONNECT_FAILED, _) => .error ()
    | (res, v') =>
      restoreInputs maxOutputsPerBlock rest v' (clean && decide (res ≠ .DISCONNECT_UNCLEAN))

/-- The transaction loop of `DisconnectBlock` (validation.cpp:1310-1354),
over `block.vtx` in reverse order with its original positions: remove the
outputs, then (for transactions that are neither coinbase nor zerocoin
spends) check the undo-record arity and restore the inputs.  A position-0
non-coinbase transaction would read `vtxundo[-1]` in the source; that
out-of-bounds access is modelled as failure (it cannot arise for a block
whose first transaction is the coinbase). -/
def disconnectTxs (maxOutputsPerBlock : Nat) (undos : List TxUndo) :
    List (Nat × Tx) → CoinsView → Bool → Except Unit (CoinsView × Bool)
  | [], v, clean => .ok (v, clean)
  | (i, tx) :: rest, v, clean =>
    let (v1, clean1) := disconnectOutputs tx.txid tx.vout.enum v clean
    if tx.isCoinBase || tx.hasZerocoinSpendInputs then
      disconnectTxs maxOutputsPerBlock undos rest v1 clean1
    else if i = 0 then .error ()
    else
      match undos.get? (i - 1) with
      | none => .error ()
      | some txundo =>
        if txundo.length ≠ tx.vin.length then .error ()
        else
          match restoreInputs maxOutputsPerBlock ((tx.vin.zip txundo).reverse) v1 clean1 with
          | .error _ => .error ()
          | .ok (v2, clean2) => disconnectTxs maxOutputsPerBlock undos rest v2 clean2

/-- `DisconnectBlock(block, pindex, view)` (validation.cpp:1270): the
best-block assertion (line 1276), the undo-arity check (line 1293), the
reverse transaction loop, and the rewind of the best-block pointer to the
parent (line 1357).  On `DISCONNECT_FAILED` the source leaves the view in an
indeterminate state; the embedding returns the untouched input view there. -/
def disconnectBlock (block : Block) (pindexHash prevHash : Nat) (undos : List TxUndo)
    (view : CoinsView) (maxOutputsPerBlock : Nat) : DisconnectResult × CoinsView :=
  if pindexHash ≠ view.bestBlock then (.DISCONNECT_FAILED, view)
  else if undos.length + 1 ≠ block.vtx.length then (.DISCONNECT_FAILED, view)
  else
    match disconnectTxs maxOutputsPerBlock undos block.vtx.enum.reverse view true with
    | .error _ => (.DISCONNECT_FAILED, view)
    | .ok (v, clean) =>
      ((if clean then .DISCONNECT_OK else .DISCONNECT_UNCLEAN), v.setBestBlock prevHash)

/-!
## Concrete objects used by witnesses and counterexamples
-/

/-- Concrete consensus parameters for witnesses (maturity 100, a large money
cap, genesis hash 7). -/
def wParams : ConsensusParams :=
  { nCoinbaseMaturity := 100, nMaxMoneyOut := 21000000 * COIN, hashGenesisBlock := 7 }

/-- The empty coin view whose best block is the (abstract) hash 0. -/
def emptyView : CoinsView := { coins := fun _ => none, bestBlock := 0 }

/-- A coinbase transaction paying exactly 250 PIV. -/
def wCb : Tx :=
  { txid := 5, vin := [], vout := [⟨250 * COIN, 1, false, false⟩],
    isCoinBase := true, isCoinStake := false, hasZerocoinSpendInputs := false }

/-- A proof-of-work block at height 2 containing only `wCb`. -/
def wCbBlock : Block :=
  { hashBlock := 1, hashPrevBlock := 0, vtx := [wCb], isProofOfStake := false }

/-- A coinbase transaction overpaying the height-2 reward by 1 upiv. -/
def wCbOver : Tx := { wCb with vout := [⟨250 * COIN + 1, 1, false, false⟩] }

/-- A proof-of-work block at height 2 containing only `wCbOver`. -/
def wCbOverBlock : Block := { wCbBlock with vtx := [wCbOver] }

/-!
## C1 — the reward-schedule check of ConnectBlock
-/

/-- C1: once the per-transaction phase of `ConnectBlock` has succeeded with
tallies `acc` (on a non-genesis block in the correct PoS/PoW period, with the
view at the parent), the block is rejected with reason `"bad-cb-amount"`
exactly when the minted value `(nValueOut - nValueIn) + nFees` differs — in
either direction — from `GetBlockValue(nHeight)` plus, for proof-of-work
blocks, the fees; when it is exactly equal, the check passes and the block
connects. -/
theorem connectBlock_reward_schedule
    (params : ConsensusParams) (net : Network) (zcV2 : Int) (isPoSActive : Bool)
    (block : Block) (nHeight : Int) (prevHash : Nat) (view : CoinsView)
    (acc : ConnAcc)
    (hprev : prevHash = view.bestBlock)
    (hgen : block.hashBlock ≠ params.hashGenesisBlock)
    (hpos1 : (!isPoSActive && block.isProofOfStake) = false)
    (hpos2 : (isPoSActive && block.isProofOfWork) = false)
    (hloop : connectTxLoop params nHeight block.vtx 0
      { view := view, nFees := 0, nValueIn := 0, nValueOut := 0, undos := [] } = .ok acc) :
    (connectBlock params net zcV2 isPoSActive block nHeight prevHash view
        = .error "bad-cb-amount"
      ↔ (acc.nValueOut - acc.nValueIn) + acc.nFees
          ≠ GetBlockValue net zcV2 nHeight
            + (if block.isProofOfWork then acc.nFees else 0)) ∧
    ((acc.nValueOut - acc.nValueIn) + acc.nFees
        = GetBlockValue net zcV2 nHeight + (if block.isProofOfWork then acc.nFees else 0)
      → connectBlock params net zcV2 isPoSActive block nHeight prevHash view
          = .ok (acc.view.setBestBlock block.hashBlock, acc.undos)) := by
  unfold connectBlock
  simp only [hprev, ne_eq, not_true_eq_false, if_false, ite_not]
  rw [if_neg hgen, if_neg (by simp [hpos1]), if_neg (by simp [hpos2]), hloop]
  simp only [IsBlockValueValid]
  constructor
  · by_cases h : (acc.nValueOut - acc.nValueIn) + acc.nFees
      = GetBlockValue net zcV2 nHeight + (if block.isProofOfWork then acc.nFees else 0)
    · simp [h]
    · simp [h]
  · intro h
    simp [h]

/-- Witness for C1 at concrete inputs: the exactly-paying height-2 coinbase
block connects, and the same block overpaying by 1 upiv is rejected with
`"bad-cb-amount"`. -/
theorem connectBlock_reward_schedule_witness :
    connectBlock wParams Network.MAIN 1050000 false wCbBlock 2 0 emptyView
      = .ok ((addCoins emptyView wCb 2).setBestBlock 1, []) ∧
    connectBlock wParams Network.MAIN 1050000 false wCbOverBlock 2 0 emptyView
      = .error "bad-cb-amount" := by
  constructor
  · exact (connectBlock_reward_schedule wParams Network.MAIN 1050000 false wCbBlock 2 0
      emptyView { view := addCoins emptyView wCb 2, nFees := 0, nValueIn := 0,
                  nValueOut := 250 * COIN, undos := [] }
      rfl (by decide) rfl rfl (by rfl)).2 (by decide)
  · exact ((connectBlock_reward_schedule wParams Network.MAIN 1050000 false wCbOverBlock 2 0
      emptyView { view := addCoins emptyView wCbOver 2, nFees := 0, nValueIn := 0,
                  nValueOut := 250 * COIN + 1, undos := [] }
      rfl (by decide) rfl rfl (by rfl)).1).2 (by decide)

/-!
## C3 — connecting the genesis block
-/

/-- The genesis block for `wParams` (hash 7): a single coinbase with one
250-PIV output. -/
def wGenesisCb : Tx :=
  { txid := 9, vin := [], vout := [⟨250 * COIN, 3, false, false⟩],
    isCoinBase := true, isCoinStake := false, hasZerocoinSpendInputs := false }

/-- The genesis block itself. -/
def wGenesisBlock : Block :=
  { hashBlock := 7, hashPrevBlock := 0, vtx := [wGenesisCb], isProofOfStake := false }

/-- C3 counterexample: connecting the genesis block to the empty view
succeeds and moves the best-block pointer to the genesis hash, but the view
does NOT contain the genesis coinbase output `(9, 0)` afterwards — the
genesis special case of `ConnectBlock` (validation.cpp:1430-1436) skips the
connection of its transactions, so no coins are added.  This refutes the
claim that the view then contains exactly the genesis coinbase outputs. -/
theorem connectBlock_genesis_counterexample :
    connectBlock wParams Network.MAIN 1050000 false wGenesisBlock 0 0 emptyView
      = .ok (emptyView.setBestBlock 7, []) ∧
    ((emptyView.setBestBlock 7).coins ⟨9, 0⟩ = none ∧ wGenesisCb.vout ≠ []) := by
  refine ⟨by rfl, by rfl, by decide⟩

/-- C3 (amended): connecting the genesis block (to any view whose best block
is the expected parent — in particular the empty view) succeeds, sets the
view's best-block pointer to the genesis hash, and leaves the coin set
unchanged: the genesis transactions are skipped ("its coinbase is
unspendable"), so the view holds no coins for the genesis outputs. -/
theorem connectBlock_genesis
    (params : ConsensusParams) (net : Network) (zcV2 : Int) (isPoSActive : Bool)
    (block : Block) (nHeight : Int) (prevHash : Nat) (view : CoinsView)
    (hprev : prevHash = view.bestBlock)
    (hgen : block.hashBlock = params.hashGenesisBlock) :
    connectBlock params net zcV2 isPoSActive block nHeight prevHash view
      = .ok (view.setBestBlock block.hashBlock, []) ∧
    ∀ o, (view.setBestBlock block.hashBlock).coins o = view.coins o := by
  constructor
  · unfold connectBlock
    rw [if_neg (by simp [hprev]), if_pos hgen]
  · intro o
    rfl

/-- Witness for C3 (amended) at the concrete genesis block and empty view. -/
theorem connectBlock_genesis_witness :
    connectBlock wParams Network.MAIN 1050000 false wGenesisBlock 0 0 emptyView
      = .ok (emptyView.setBestBlock 7, []) ∧
    (emptyView.setBestBlock 7).coins ⟨9, 0⟩ = emptyView.coins ⟨9, 0⟩ :=
  ⟨(connectBlock_genesis wParams Network.MAIN 1050000 false wGenesisBlock 0 0 emptyView
      rfl rfl).1,
   (connectBlock_genesis wParams Network.MAIN 1050000 false wGenesisBlock 0 0 emptyView
      rfl rfl).2 ⟨9, 0⟩⟩

/-!
## C4 — coinbase/coinstake maturity in CheckTxInputs
-/

/-- The value of the coin an input references (0 when absent), as read by
`CCoinsViewCache::GetValueIn` and the `CheckTxInputs` loop. -/
def coinValue (view : CoinsView) (txin : CTxIn) : Int :=
  match view.coins txin.prevout with
  | some c => c.out.nValue
  | none => 0

/-- Helper: with all referenced coins present, non-negative and summing within
the money range, the `CheckTxInputs` input loop rejects with the premature-
spend reason as soon as some referenced coin is an immature coinbase or
coinstake. -/
theorem checkTxInputsLoop_premature (params : ConsensusParams) (view : CoinsView)
    (nSpendHeight : Int) :
    ∀ (vin : List CTxIn) (nValueIn : Int),
    (∀ t ∈ vin, (view.coins t.prevout).isSome) →
    (∀ t ∈ vin, 0 ≤ coinValue view t) →
    0 ≤ nValueIn →
    nValueIn + (vin.map (coinValue view)).sum ≤ params.nMaxMoneyOut →
    (∃ t ∈ vin, ∃ c, view.coins t.prevout = some c ∧
      (c.fCoinBase || c.fCoinStake) = true ∧
      nSpendHeight - c.nHeight < params.nCoinbaseMaturity) →
    checkTxInputsLoop params view nSpendHeight vin nValueIn
      = .error "bad-txns-premature-spend-of-coinbase-coinstake"
  | [], _, _, _, _, _, himm => by simp at himm
  | t :: rest, nValueIn, hpres, hvals, hacc, hsum, himm => by
    obtain ⟨c, hc⟩ := Option.isSome_iff_exists.mp (hpres t (by simp))
    unfold checkTxInputsLoop
    simp only [hc]
    by_cases hguard : (c.fCoinBase || c.fCoinStake) = true ∧
        nSpendHeight - c.nHeight < params.nCoinbaseMaturity
    · rw [if_pos (by simp [hguard.1, hguard.2])]
    · have hval0 : coinValue view t = c.out.nValue := by simp [coinValue, hc]
      have hvt : 0 ≤ c.out.nValue := hval0 ▸ hvals t (by simp)
      have hrest0 : 0 ≤ (rest.map (coinValue view)).sum :=
        List.sum_nonneg (by
          intro x hx
          obtain ⟨t', ht', rfl⟩ := List.mem_map.mp hx
          exact hvals t' (List.mem_cons_of_mem _ ht'))
      have hsum' : nValueIn + c.out.nValue + (rest.map (coinValue view)).sum
          ≤ params.nMaxMoneyOut := by
        have := hsum
        simp only [List.map_cons, List.sum_cons, hval0] at this
        linarith
      have hmr1 : moneyRange params c.out.nValue = true := by
        simp only [moneyRange, Bool.and_eq_true, decide_eq_true_eq]
        exact ⟨hvt, by linarith⟩
      have hmr2 : moneyRange params (nValueIn + c.out.nValue) = true := by
        simp only [moneyRange, Bool.and_eq_true, decide_eq_true_eq]
        exact ⟨by linarith, by linarith⟩
      rw [if_neg (by
        simp only [Bool.and_eq_true, decide_eq_true_eq]
        intro hand
        exact hguard ⟨hand.1, hand.2⟩)]
      rw [if_neg (by simp [hmr1, hmr2])]
      apply checkTxInputsLoop_premature params view nSpendHeight rest
      · intro t' ht'; exact hpres t' (List.mem_cons_of_mem _ ht')
      · intro t' ht'; exact hvals t' (List.mem_cons_of_mem _ ht')
      · linarith
      · simp only [List.map_cons, List.sum_cons, hval0] at hsum
        linarith
      · obtain ⟨t', ht', c', hc', hflags, himm'⟩ := himm
        rcases List.mem_cons.mp ht' with rfl | htail
        · exact absurd ⟨by rw [hc] at hc'; injection hc' with h; rw [h]; exact hflags,
            by rw [hc] at hc'; injection hc' with h; rw [h]; exact himm'⟩ hguard
        · exact ⟨t', htail, c', hc', hflags, himm'⟩

/-- Helper: when every referenced coinbase/coinstake coin has reached the
maturity depth, the `CheckTxInputs` input loop never produces the
premature-spend reason (it may still fail for other reasons). -/
theorem checkTxInputsLoop_mature (params : ConsensusParams) (view : CoinsView)
    (nSpendHeight : Int) :
    ∀ (vin : List CTxIn) (nValueIn : Int),
    (∀ t ∈ vin, ∀ c, view.coins t.prevout = some c →
      (c.fCoinBase || c.fCoinStake) = true →
      params.nCoinbaseMaturity ≤ nSpendHeight - c.nHeight) →
    checkTxInputsLoop params view nSpendHeight vin nValueIn
      ≠ .error "bad-txns-premature-spend-of-coinbase-coinstake"
  | [], _, _ => by simp [checkTxInputsLoop]
  | t :: rest, nValueIn, hmat => by
    unfold checkTxInputsLoop
    cases hc : view.coins t.prevout with
    | none => simp
    | some c =>
      simp only []
      have hguard : ((c.fCoinBase || c.fCoinStake) &&
          decide (nSpendHeight - c.nHeight < params.nCoinbaseMaturity)) = false := by
        by_cases hflags : (c.fCoinBase || c.fCoinStake) = true
        · have := hmat t (by simp) c hc hflags
          simp [hflags, decide_eq_false_iff_not]
          omega
        · simp [Bool.eq_false_iff.mpr hflags]
      rw [if_neg (by simp [hguard])]
      split
      · simp
      · exact checkTxInputsLoop_mature params view nSpendHeight rest _
          (fun t' ht' => hmat t' (List.mem_cons_of_mem _ ht'))

/-- C4: `Consensus::CheckTxInputs` — shared by mempool admission and block
connect through `CheckInputs` — rejects with reason
`"bad-txns-premature-spend-of-coinbase-coinstake"` whenever some input's
coin is a coinbase or coinstake created fewer than `nCoinbaseMaturity`
blocks below the spend height (given all inputs available and input values
in monetary range), and never produces that reason when every
coinbase/coinstake input has depth at least the maturity constant — in
particular a depth exactly equal to it passes the maturity check.  The third
conjunct records the sharing: for a transaction that is neither coinbase nor
zerocoin spend, the non-script part of `CheckInputs` is exactly
`CheckTxInputs`. -/
theorem checkTxInputs_maturity (params : ConsensusParams) (tx : Tx)
    (view : CoinsView) (nSpendHeight : Int)
    (hpres : ∀ t ∈ tx.vin, (view.coins t.prevout).isSome)
    (hvals : ∀ t ∈ tx.vin, 0 ≤ coinValue view t)
    (hsum : (tx.vin.map (coinValue view)).sum ≤ params.nMaxMoneyOut) :
    ((∃ t ∈ tx.vin, ∃ c, view.coins t.prevout = some c ∧
        (c.fCoinBase || c.fCoinStake) = true ∧
        nSpendHeight - c.nHeight < params.nCoinbaseMaturity) →
      checkTxInputs params tx view nSpendHeight
        = .error "bad-txns-premature-spend-of-coinbase-coinstake") ∧
    ((∀ t ∈ tx.vin, ∀ c, view.coins t.prevout = some c →
        (c.fCoinBase || c.fCoinStake) = true →
        params.nCoinbaseMaturity ≤ nSpendHeight - c.nHeight) →
      checkTxInputs params tx view nSpendHeight
        ≠ .error "bad-txns-premature-spend-of-coinbase-coinstake") ∧
    (tx.isCoinBase = false → tx.hasZerocoinSpendInputs = false →
      checkInputsNonScript params tx view nSpendHeight
        = checkTxInputs params tx view nSpendHeight) := by
  have hhave : view.haveInputs tx = true := by
    simp only [CoinsView.haveInputs, List.all_eq_true]
    intro t ht
    simpa [CoinsView.haveCoin] using hpres t ht
  refine ⟨fun himm => ?_, fun hmat => ?_, fun hcb hzc => ?_⟩
  · unfold checkTxInputs
    rw [hhave]
    simp only [Bool.not_true, Bool.false_eq_true, if_false]
    rw [checkTxInputsLoop_premature params view nSpendHeight tx.vin 0 hpres hvals
      le_rfl (by simpa using hsum) himm]
  · unfold checkTxInputs
    rw [hhave]
    simp only [Bool.not_true, Bool.false_eq_true, if_false]
    have hloop := checkTxInputsLoop_mature params view nSpendHeight tx.vin 0 hmat
    cases hres : checkTxInputsLoop params view nSpendHeight tx.vin 0 with
    | error e =>
      rw [hres] at hloop
      simpa using hloop
    | ok nValueIn =>
      simp only []
      split
      · split
        · simp
        · split
          · simp
          · split
            · simp
            · simp
      · simp
  · simp [checkInputsNonScript, hcb, hzc]

/-- A coinbase coin created at height 1 with value 250 PIV. -/
def wMatCoin : Coin := ⟨⟨250 * COIN, 2, false, false⟩, 1, true, false⟩

/-- A view holding only `wMatCoin` at outpoint (2, 0). -/
def wMatView : CoinsView :=
  { coins := fun o => if o = ⟨2, 0⟩ then some wMatCoin else none, bestBlock := 0 }

/-- A transaction spending the coinbase output (2, 0). -/
def wSpendTx : Tx :=
  { txid := 11, vin := [⟨⟨2, 0⟩⟩], vout := [⟨250 * COIN, 4, false, false⟩],
    isCoinBase := false, isCoinStake := false, hasZerocoinSpendInputs := false }

/-- Witness for C4: spending the height-1 coinbase at spend height 50
(depth 49 < 100) is rejected as premature; at spend height 101 (depth
exactly 100 = maturity) the maturity check passes. -/
theorem checkTxInputs_maturity_witness :
    checkTxInputs wParams wSpendTx wMatView 50
      = .error "bad-txns-premature-spend-of-coinbase-coinstake" ∧
    checkTxInputs wParams wSpendTx wMatView 101
      ≠ .error "bad-txns-premature-spend-of-coinbase-coinstake" := by
  constructor
  · exact (checkTxInputs_maturity wParams wSpendTx wMatView 50
      (by decide) (by decide) (by decide)).1
      ⟨⟨⟨2, 0⟩⟩, by decide, wMatCoin, by decide, by decide, by decide⟩
  · refine (checkTxInputs_maturity wParams wSpendTx wMatView 101
      (by decide) (by decide) (by decide)).2.1 ?_
    intro t ht c hc hflags
    have ht' : t = ⟨⟨2, 0⟩⟩ := by
      simpa [wSpendTx] using ht
    subst ht'
    have hcm : wMatCoin = c := by
      simpa [wMatView] using hc
    subst hcm
    decide

/-!
## C5 — mempool conflict rule (AcceptToMemoryPoolWorker)

The mempool is modelled as its entry list; `mapNextTx` — maintained by
`CTxMemPool::addUnchecked` in txmempool.cpp, which is not among the given
sources — is modelled from the spec's Mempool Entry bookkeeping (§3): it
indexes exactly the prevouts spent by in-pool entries.  The embedding of
`AcceptToMemoryPoolWorker` keeps the pool-facing pipeline in source order:
the duplicate check (line 354), the conflict scan over `mapNextTx` (lines
370-380, reject `"txn-mempool-conflict"` before any pool mutation), the
pool-independent validation block (inputs, standardness, fees, scripts:
lines 383-568, none of which mutates the pool — abstracted to the boolean
`passesOtherChecks`), the insertion `addUnchecked` (line 571), and the
trim-and-recheck (lines 574-582; `trim` is any entry-removing pass, with
reject `"mempool full"` when the new entry itself did not survive).
-/

/-- The mempool: its entry list (`mapTx`). -/
structure MemPool where
  entries : List Tx
deriving Repr

/-- `CTxMemPool::exists(hash)`. -/
def MemPool.existsTx (pool : MemPool) (hash : Nat) : Bool :=
  pool.entries.any (fun t => t.txid = hash)

/-- `pool.mapNextTx.count(outpoint)`: some in-pool entry spends this prevout. -/
def MemPool.spendsPrevout (pool : MemPool) (o : OutPoint) : Bool :=
  pool.entries.any (fun t => t.vin.any (fun i => i.prevout = o))

/-- `CTxMemPool::addUnchecked`: insert the transaction into the pool. -/
def MemPool.addUnchecked (pool : MemPool) (tx : Tx) : MemPool :=
  ⟨pool.entries ++ [tx]⟩

/-- The pool-facing pipeline of `AcceptToMemoryPoolWorker` (validation.cpp:
305-588): returns the rejection reason (or `none` on acceptance) together
with the resulting pool. -/
def acceptToMemoryPoolWorkerPool (pool : MemPool) (tx : Tx)
    (passesOtherChecks : Bool) (trim : MemPool → MemPool) : Option String × MemPool :=
  if pool.existsTx tx.txid then (some "txn-already-in-mempool", pool)
  else if !tx.hasZerocoinSpendInputs &&
      tx.vin.any (fun txin => pool.spendsPrevout txin.prevout) then
    (some "txn-mempool-conflict", pool)
  else if !passesOtherChecks then (some "other-reject", pool)
  else
    let pool2 := trim (pool.addUnchecked tx)
    if !pool2.existsTx tx.txid then (some "mempool full", pool2)
    else (none, pool2)

/-- No two distinct mempool entries spend the same prevout. -/
def noDoubleSpend (pool : MemPool) : Prop :=
  ∀ t1 ∈ pool.entries, ∀ t2 ∈ pool.entries, t1 ≠ t2 →
    ∀ i1 ∈ t1.vin, ∀ i2 ∈ t2.vin, i1.prevout ≠ i2.prevout

instance (pool : MemPool) : Decidable (noDoubleSpend pool) := by
  unfold noDoubleSpend
  infer_instance

/-- Helper: `noDoubleSpend` is preserved by removing entries. -/
theorem noDoubleSpend_subset (p q : MemPool)
    (hsub : ∀ t ∈ q.entries, t ∈ p.entries) (hp : noDoubleSpend p) :
    noDoubleSpend q :=
  fun t1 h1 t2 h2 hne => hp t1 (hsub t1 h1) t2 (hsub t2 h2) hne

/-- C5: a transaction `t2` (not a zerocoin spend, not already present) that
spends a prevout already spent by some in-pool entry `t1` is rejected by
`AcceptToMemoryPoolWorker` with reason `"txn-mempool-conflict"` and the pool
is unchanged by the attempt; and, whatever the submitted transaction and the
outcome, admission preserves the invariant that no two distinct mempool
entries spend the same prevout. -/
theorem mempool_conflict (pool : MemPool) (t2 : Tx) (passes : Bool)
    (trim : MemPool → MemPool)
    (htrim : ∀ p, ∀ t ∈ (trim p).entries, t ∈ p.entries)
    (hzc : t2.hasZerocoinSpendInputs = false)
    (hdup : pool.existsTx t2.txid = false) :
    ((∃ t1 ∈ pool.entries, ∃ i1 ∈ t1.vin, ∃ i2 ∈ t2.vin, i1.prevout = i2.prevout) →
      acceptToMemoryPoolWorkerPool pool t2 passes trim
        = (some "txn-mempool-conflict", pool)) ∧
    (noDoubleSpend pool →
      noDoubleSpend (acceptToMemoryPoolWorkerPool pool t2 passes trim).2) := by
  constructor
  · rintro ⟨t1, ht1, i1, hi1, i2, hi2, hpeq⟩
    unfold acceptToMemoryPoolWorkerPool
    rw [if_neg (by simp [hdup]), if_pos]
    simp only [hzc, Bool.not_false, Bool.true_and, List.any_eq_true]
    refine ⟨i2, hi2, ?_⟩
    simp only [MemPool.spendsPrevout, List.any_eq_true]
    exact ⟨t1, ht1, i1, hi1, decide_eq_true hpeq⟩
  · intro hinv
    unfold acceptToMemoryPoolWorkerPool
    split
    · exact hinv
    · split
      · exact hinv
      · split
        · exact hinv
        · rename_i hnodup hconf hpass
          have hconf' : ∀ i ∈ t2.vin, pool.spendsPrevout i.prevout = false := by
            intro i hi
            by_contra habs
            exact hconf (by
              simp only [hzc, Bool.not_false, Bool.true_and, List.any_eq_true]
              exact ⟨i, hi, by simpa using habs⟩)
          have hadd : noDoubleSpend (pool.addUnchecked t2) := by
            intro a ha b hb hne i1 hi1 i2 hi2
            simp only [MemPool.addUnchecked, List.mem_append, List.mem_singleton] at ha hb
            rcases ha with ha | rfl <;> rcases hb with hb | rfl
            · exact hinv a ha b hb hne i1 hi1 i2 hi2
            · intro heq
              have hsp := hconf' i2 hi2
              simp only [MemPool.spendsPrevout] at hsp
              have hnone := List.any_eq_false.mp hsp a ha
              exact hnone (List.any_eq_true.mpr ⟨i1, hi1, decide_eq_true heq⟩)
            · intro heq
              have hsp := hconf' i1 hi1
              simp only [MemPool.spendsPrevout] at hsp
              have hnone := List.any_eq_false.mp hsp b hb
              exact hnone (List.any_eq_true.mpr ⟨i2, hi2, decide_eq_true heq.symm⟩)
            · exact absurd rfl hne
          have htrimmed : noDoubleSpend (trim (pool.addUnchecked t2)) :=
            noDoubleSpend_subset _ _ (htrim _) hadd
          by_cases hfull : (trim (pool.addUnchecked t2)).existsTx t2.txid
          · simp only [hfull, Bool.not_true, Bool.false_eq_true, if_false]
            exact htrimmed
          · simp only [Bool.eq_false_iff.mpr hfull, Bool.not_false, if_true]
            exact htrimmed

/-- An in-pool transaction spending prevout (2, 0). -/
def wPoolT1 : Tx :=
  { txid := 21, vin := [⟨⟨2, 0⟩⟩], vout := [⟨100, 6, false, false⟩],
    isCoinBase := false, isCoinStake := false, hasZerocoinSpendInputs := false }

/-- A pool containing only `wPoolT1`. -/
def wPool : MemPool := ⟨[wPoolT1]⟩

/-- A second transaction spending the same prevout (2, 0). -/
def wPoolT2 : Tx :=
  { txid := 22, vin := [⟨⟨2, 0⟩⟩], vout := [⟨90, 8, false, false⟩],
    isCoinBase := false, isCoinStake := false, hasZerocoinSpendInputs := false }

/-- Witness for C5: against `wPool`, the conflicting `wPoolT2` is rejected
with `"txn-mempool-conflict"`, the pool is unchanged, and the
no-double-spend invariant holds afterwards. -/
theorem mempool_conflict_witness :
    acceptToMemoryPoolWorkerPool wPool wPoolT2 true id
      = (some "txn-mempool-conflict", wPool) ∧
    noDoubleSpend (acceptToMemoryPoolWorkerPool wPool wPoolT2 true id).2 := by
  constructor
  · exact (mempool_conflict wPool wPoolT2 true id (fun p t h => h) rfl rfl).1
      ⟨wPoolT1, by decide, ⟨⟨2, 0⟩⟩, by decide, ⟨⟨2, 0⟩⟩, by decide, rfl⟩
  · exact (mempool_conflict wPool wPoolT2 true id (fun p t h => h) rfl rfl).2
      (by decide)

/-!
## C6 — fork-choice: CBlockIndexWorkComparator and FindMostWorkChain

A candidate tip carries its cumulative work (`nChainWork`, an arith_uint256,
modelled as `Nat`), its arrival counter (`nSequenceId`), the pointer address
used as final tie-break (modelled as `Nat`), and the outcome flags of
`FindMostWorkChain`'s ancestor walk (whether some block on the path back to
the active chain is failed or missing data).  The candidate set
(`setBlockIndexCandidates`, a `std::set` ordered by the comparator) is
modelled as a list in arbitrary order; `rbegin` is its comparator-maximum.
-/

structure BlkCand where
  nChainWork : Nat
  nSequenceId : Nat
  addr : Nat
  failedChain : Bool
  missingData : Bool
deriving DecidableEq, Repr

/-- `CBlockIndexWorkComparator` (validation.cpp:122-141): sort by most total
work, then by earliest arrival (`nSequenceId`), then by pointer address. -/
def CBlockIndexWorkComparator (pa pb : BlkCand) : Bool :=
  if pa.nChainWork > pb.nChainWork then false
  else if pa.nChainWork < pb.nChainWork then true
  else if pa.nSequenceId < pb.nSequenceId then false
  else if pa.nSequenceId > pb.nSequenceId then true
  else if pa.addr < pb.addr then false
  else if pa.addr > pb.addr then true
  else false

/-- `setBlockIndexCandidates.rbegin()`: the comparator-greatest element of
the candidate set (arbitrary enumeration order). -/
def setRBegin : List BlkCand → Option BlkCand
  | [] => none
  | x :: xs =>
    some (xs.foldl (fun acc y => if CBlockIndexWorkComparator acc y then y else acc) x)

/-- The element picked by `setRBegin` is a member of the set. -/
theorem setRBegin_mem : ∀ (l : List BlkCand) (b : BlkCand), setRBegin l = some b → b ∈ l := by
  have key : ∀ (xs : List BlkCand) (x : BlkCand),
      xs.foldl (fun acc y => if CBlockIndexWorkComparator acc y then y else acc) x = x ∨
      xs.foldl (fun acc y => if CBlockIndexWorkComparator acc y then y else acc) x ∈ xs := by
    intro xs
    induction xs with
    | nil => intro x; exact Or.inl rfl
    | cons y ys ih =>
      intro x
      simp only [List.foldl_cons]
      by_cases h : CBlockIndexWorkComparator x y
      · rw [if_pos h]
        rcases ih y with h' | h'
        · exact Or.inr (by rw [h']; exact List.mem_cons_self y ys)
        · exact Or.inr (List.mem_cons_of_mem _ h')
      · rw [if_neg h]
        rcases ih x with h' | h'
        · exact Or.inl h'
        · exact Or.inr (List.mem_cons_of_mem _ h')
  intro l b h
  cases l with
  | nil => simp [setRBegin] at h
  | cons x xs =>
    simp only [setRBegin, Option.some.injEq] at h
    rcases key xs x with h' | h'
    · rw [← h, h']; exact List.mem_cons_self x xs
    · rw [← h]; exact List.mem_cons_of_mem _ h'

/-- `FindMostWorkChain` (validation.cpp:2053-2106): repeatedly take the best
candidate; if its path back to the active chain contains a failed or
data-missing block, evict it from the candidate set and retry, otherwise
return it.  (In the source the eviction removes the whole unusable subchain
and remembers data-missing blocks in `mapBlocksUnlinked`; for the selection
result only the removal of the inspected candidate matters, and for usable
candidates the eviction path never runs.) -/
def findMostWorkChain (cands : List BlkCand) : Option BlkCand :=
  match h : setRBegin cands with
  | none => none
  | some best =>
    if best.failedChain || best.missingData then
      findMostWorkChain (cands.erase best)
    else some best
termination_by cands.length
decreasing_by
  have hmem := setRBegin_mem cands best h
  have := List.length_erase_add_one hmem
  omega

/-- C6: for two usable candidates (transaction data available on the whole
path, no failed ancestor) the selection is independent of insertion order:
strictly greater cumulative work wins, and at equal work the smaller
sequence id (earlier arrival) wins. -/
theorem findMostWorkChain_deterministic (A B : BlkCand)
    (hA : A.failedChain = false ∧ A.missingData = false)
    (_hB : B.failedChain = false ∧ B.missingData = false) :
    (A.nChainWork > B.nChainWork →
      findMostWorkChain [A, B] = some A ∧ findMostWorkChain [B, A] = some A) ∧
    (A.nChainWork = B.nChainWork → A.nSequenceId < B.nSequenceId →
      findMostWorkChain [A, B] = some A ∧ findMostWorkChain [B, A] = some A) := by
  have hgoodA : (A.failedChain || A.missingData) = false := by
    simp [hA.1, hA.2]
  constructor
  · intro hw
    have hcompAB : CBlockIndexWorkComparator A B = false := by
      unfold CBlockIndexWorkComparator
      rw [if_pos hw]
    have hcompBA : CBlockIndexWorkComparator B A = true := by
      unfold CBlockIndexWorkComparator
      rw [if_neg (by omega), if_pos hw]
    constructor
    · unfold findMostWorkChain
      simp only [setRBegin, List.foldl_cons, List.foldl_nil, hcompAB, if_false, Bool.false_eq_true]
      rw [if_neg (by simp [hgoodA])]
    · unfold findMostWorkChain
      simp only [setRBegin, List.foldl_cons, List.foldl_nil, hcompBA, if_true]
      rw [if_neg (by simp [hgoodA])]
  · intro hw hseq
    have hcompAB : CBlockIndexWorkComparator A B = false := by
      unfold CBlockIndexWorkComparator
      rw [if_neg (by omega), if_neg (by omega), if_pos hseq]
    have hcompBA : CBlockIndexWorkComparator B A = true := by
      unfold CBlockIndexWorkComparator
      rw [if_neg (by omega), if_neg (by omega), if_neg (by omega), if_pos hseq]
    constructor
    · unfold findMostWorkChain
      simp only [setRBegin, List.foldl_cons, List.foldl_nil, hcompAB, if_false, Bool.false_eq_true]
      rw [if_neg (by simp [hgoodA])]
    · unfold findMostWorkChain
      simp only [setRBegin, List.foldl_cons, List.foldl_nil, hcompBA, if_true]
      rw [if_neg (by simp [hgoodA])]

/-- Witness for C6 at concrete candidates: higher work wins in both orders;
at equal work the earlier arrival wins in both orders. -/
theorem findMostWorkChain_deterministic_witness :
    (findMostWorkChain [⟨10, 4, 0, false, false⟩, ⟨7, 1, 1, false, false⟩]
        = some ⟨10, 4, 0, false, false⟩ ∧
      findMostWorkChain [⟨7, 1, 1, false, false⟩, ⟨10, 4, 0, false, false⟩]
        = some ⟨10, 4, 0, false, false⟩) ∧
    (findMostWorkChain [⟨10, 2, 0, false, false⟩, ⟨10, 3, 1, false, false⟩]
        = some ⟨10, 2, 0, false, false⟩ ∧
      findMostWorkChain [⟨10, 3, 1, false, false⟩, ⟨10, 2, 0, false, false⟩]
        = some ⟨10, 2, 0, false, false⟩) :=
  ⟨(findMostWorkChain_deterministic ⟨10, 4, 0, false, false⟩ ⟨7, 1, 1, false, false⟩
      ⟨rfl, rfl⟩ ⟨rfl, rfl⟩).1 (by decide),
   (findMostWorkChain_deterministic ⟨10, 2, 0, false, false⟩ ⟨10, 3, 1, false, false⟩
      ⟨rfl, rfl⟩ ⟨rfl, rfl⟩).2 rfl (by decide)⟩

/-!
## C10 — zero-fee rejection in mempool admission

`GetMinRelayFee` (validation.cpp:271) and the fee-gate section of
`AcceptToMemoryPoolWorker` (validation.cpp:482-527).  `CFeeRate::GetFee` and
the fee/priority deltas of `CTxMemPool::ApplyDeltas` live outside the given
sources and enter as opaque parameters (`getFee`, `dPriorityDelta`,
`nFeeDelta`); `DEFAULT_BLOCK_PRIORITY_SIZE` is likewise a parameter.
-/

/-- `GetMinRelayFee(tx, pool, nBytes, fAllowFree)` (validation.cpp:271):
positive fee/priority deltas short-circuit to 0; otherwise the relay floor
`::minRelayTxFee.GetFee(nBytes)`, zeroed when `fAllowFree` and the size is
under `DEFAULT_BLOCK_PRIORITY_SIZE - 1000`, clamped into the money range. -/
def GetMinRelayFee (params : ConsensusParams) (dPriorityDelta nFeeDelta : Int)
    (getFee : Nat → Int) (defaultBlockPrioritySize : Nat) (nBytes : Nat)
    (fAllowFree : Bool) : Int :=
  if dPriorityDelta > 0 || nFeeDelta > 0 then 0
  else
    let nMinFee := getFee nBytes
    let nMinFee := if fAllowFree && decide (nBytes < defaultBlockPrioritySize - 1000)
                   then 0 else nMinFee
    if !(moneyRange params nMinFee) then params.nMaxMoneyOut else nMinFee

/-- The fee-gate section of `AcceptToMemoryPoolWorker` (validation.cpp:
482-527), in source order with the `!ignoreFees` guard hoisted onto the
three checks it wraps: the relay-floor check against
`txMinFee = GetMinRelayFee(tx, pool, nSize, true)` (line 484), the priority
check (line 489, `relayPriority`/`allowFree` standing for the
`-relaypriority` option and `AllowFree(...)`), the free-transaction rate
limiter (line 496, its decayed-counter comparison as `rateLimited`), the
absurd-fee check (line 516), and the unconditional zero-fee rejection
outside the `ignoreFees` guard (lines 521-527, which returns failure for
every non-regtest, non-zerocoin-spend transaction with `nFees == 0`).
`relayFee` is `::minRelayTxFee.GetFee(nSize)`.  Returns the rejection
reason, `none` when the section passes. -/
def atmpFeeGate (isRegTestNet hasZcSpendInputs fLimitFree ignoreFees fRejectAbsurdFee
    relayPriority allowFree rateLimited : Bool) (nFees txMinFee relayFee : Int) :
    Option String :=
  if !ignoreFees && (fLimitFree && decide (nFees < txMinFee) && !hasZcSpendInputs) then
    some "insufficient fee"
  else if !ignoreFees &&
      (!hasZcSpendInputs && relayPriority && decide (nFees < relayFee) && !allowFree) then
    some "insufficient priority"
  else if !ignoreFees &&
      (fLimitFree && decide (nFees < relayFee) && !hasZcSpendInputs && rateLimited) then
    some "rate limited free transaction"
  else if fRejectAbsurdFee && decide (nFees > relayFee * 10000) then
    some "absurdly-high-fee"
  else if !isRegTestNet && decide (nFees = 0) && !hasZcSpendInputs then
    some "zero-fees-not-accepted"
  else none

/-- C10: outside regtest, a transaction with zero fee and no zerocoin-spend
inputs is rejected by the admission fee gate under every flag combination —
even though its size can qualify it for the free-transaction allowance that
makes `GetMinRelayFee` return 0 (first conjunct) — so admission passes the
gate only with a nonzero fee. -/
theorem atmp_zero_fee_rejected
    (fLimitFree ignoreFees fRejectAbsurdFee relayPriority allowFree rateLimited : Bool)
    (nFees txMinFee relayFee : Int)
    (params : ConsensusParams) (dPriorityDelta nFeeDelta : Int) (getFee : Nat → Int)
    (defaultBlockPrioritySize nBytes : Nat)
    (hfree : nBytes < defaultBlockPrioritySize - 1000)
    (hd1 : ¬ dPriorityDelta > 0) (hd2 : ¬ nFeeDelta > 0)
    (hmax : 0 ≤ params.nMaxMoneyOut)
    (hfee : nFees = 0) :
    GetMinRelayFee params dPriorityDelta nFeeDelta getFee defaultBlockPrioritySize
      nBytes true = 0 ∧
    (atmpFeeGate false false fLimitFree ignoreFees fRejectAbsurdFee relayPriority
      allowFree rateLimited nFees txMinFee relayFee).isSome = true := by
  constructor
  · unfold GetMinRelayFee
    rw [if_neg (by simp [hd1, hd2])]
    simp only [if_pos (by simp [hfree] : (true && decide (nBytes < defaultBlockPrioritySize - 1000)) = true)]
    rw [if_neg (by simp [moneyRange, hmax])]
  · unfold atmpFeeGate
    split_ifs <;> simp_all

/-- Witness for C10: a 100-byte zero-fee transaction outside regtest is
rejected by the fee gate although its minimum relay fee is 0. -/
theorem atmp_zero_fee_rejected_witness :
    GetMinRelayFee wParams 0 0 (fun _ => 10000) 50000 100 true = 0 ∧
    (atmpFeeGate false false false false false false false false 0 0 1000).isSome = true :=
  atmp_zero_fee_rejected false false false false false false 0 0 1000 wParams 0 0
    (fun _ => 10000) 50000 100 (by decide) (by decide) (by decide) (by decide) rfl

/-!
## C7 — idempotence of duplicate block submission (AcceptBlock)

The node state carries the block index (`mapBlockIndex`, here a map from
block hash to the status flags the duplicate path reads: data-present and
failed), the append-only block files, and the chainstate best block
(`AcceptBlock` never touches the coin view; connection happens later in
`ActivateBestChain`).  The pure header checks run before the duplicate
guard — `CheckWork` (validation.cpp:3031) and `CheckProofOfStake`
(validation.cpp:3035-3039) — and the block checks run after it —
`CheckBlock`/`ContextualCheckBlock` (validation.cpp:3051) — enter as opaque
predicates of the block.
-/

/-- The status flags of a block-index entry that `AcceptBlock` reads:
`BLOCK_HAVE_DATA` and `BLOCK_FAILED_MASK` (chain.h). -/
structure BlockIndexEntry where
  haveData : Bool
  failed : Bool
deriving DecidableEq, Repr

/-- The node state `AcceptBlock` can touch. -/
structure NodeState where
  mapBlockIndex : Nat → Option BlockIndexEntry
  blockFiles : List Nat
  coinViewBest : Nat

/-- The write path of `AcceptBlock` (validation.cpp:3051-3261): validate the
block body (`CheckBlock`/`ContextualCheckBlock`; failure marks the entry
`BLOCK_FAILED_VALID`), then write it to the block files and mark the entry
`BLOCK_HAVE_DATA` (`ReceivedBlockTransactions`). -/
def acceptBlockWrite (checkBlock : Block → Bool) (st : NodeState) (b : Block) :
    Bool × NodeState :=
  if !checkBlock b then
    (false, { st with mapBlockIndex := fun h =>
        if h = b.hashBlock then some ⟨false, true⟩ else st.mapBlockIndex h })
  else
    (true, { st with
      mapBlockIndex := fun h =>
        if h = b.hashBlock then some ⟨true, false⟩ else st.mapBlockIndex h,
      blockFiles := st.blockFiles ++ [b.hashBlock] })

/-- `AcceptBlock` (validation.cpp:3000) restricted to the duplicate-handling
control flow: the pure pre-checks (`CheckWork`, and `CheckProofOfStake` for
proof-of-stake blocks), then `AcceptBlockHeader` (validation.cpp:2938-2955:
a known header short-circuits, rejecting if marked failed; an unknown one
creates its index entry), then the `BLOCK_HAVE_DATA` guard (validation.cpp:
3044-3049: already-have-data returns success, touching nothing), then the
validate-and-write path. -/
def acceptBlock (checkWork checkPoS checkBlock : Block → Bool) (st : NodeState)
    (b : Block) : Bool × NodeState :=
  if !checkWork b then (false, st)
  else if b.isProofOfStake && !checkPoS b then (false, st)
  else
    match st.mapBlockIndex b.hashBlock with
    | some idx =>
      if idx.failed then (false, st)
      else if idx.haveData then (true, st)
      else acceptBlockWrite checkBlock st b
    | none =>
      acceptBlockWrite checkBlock
        { st with mapBlockIndex := fun h =>
            if h = b.hashBlock then some ⟨false, false⟩ else st.mapBlockIndex h } b

/-- Helper: a successful `AcceptBlock` leaves the block's index entry with
data present and not failed. -/
theorem acceptBlock_success_entry (checkWork checkPoS checkBlock : Block → Bool)
    (st st' : NodeState) (b : Block)
    (hfirst : acceptBlock checkWork checkPoS checkBlock st b = (true, st')) :
    checkWork b = true ∧ (b.isProofOfStake && !checkPoS b) = false ∧
    st'.mapBlockIndex b.hashBlock = some ⟨true, false⟩ := by
  unfold acceptBlock at hfirst
  split at hfirst
  · exact absurd (congrArg Prod.fst hfirst) (by simp)
  · split at hfirst
    · exact absurd (congrArg Prod.fst hfirst) (by simp)
    · rename_i hw hpos
      refine ⟨by simpa using hw, by simpa using hpos, ?_⟩
      cases hidx : st.mapBlockIndex b.hashBlock with
      | some idx =>
        rw [hidx] at hfirst
        simp only [] at hfirst
        split at hfirst
        · exact absurd (congrArg Prod.fst hfirst) (by simp)
        · split at hfirst
          · rename_i hfail hdata
            have hst : st' = st := by
              have := (Prod.mk.injEq _ _ _ _).mp hfirst
              exact this.2.symm
            rw [hst, hidx]
            have : idx = ⟨true, false⟩ := by
              cases idx with
              | mk hd fl =>
                simp only [Bool.not_eq_true] at hfail
                simp only [] at hdata hfail
                rw [hdata, hfail]
            rw [this]
          · unfold acceptBlockWrite at hfirst
            split at hfirst
            · exact absurd (congrArg Prod.fst hfirst) (by simp)
            · have hst : st' = _ := ((Prod.mk.injEq _ _ _ _).mp hfirst).2.symm
              rw [hst]
              simp
      | none =>
        rw [hidx] at hfirst
        simp only [] at hfirst
        unfold acceptBlockWrite at hfirst
        split at hfirst
        · exact absurd (congrArg Prod.fst hfirst) (by simp)
        · have hst : st' = _ := ((Prod.mk.injEq _ _ _ _).mp hfirst).2.symm
          rw [hst]
          simp

/-- C7: resubmitting a block that `AcceptBlock` already accepted is benign
and idempotent: the second call passes the pure header checks, hits the
`BLOCK_HAVE_DATA` guard and returns success with the whole node state
(block index, block files, chainstate best block) untouched — the block body
is not re-validated, not re-written, and the coin view is not mutated a
second time. -/
theorem acceptBlock_duplicate_idempotent (checkWork checkPoS checkBlock : Block → Bool)
    (st st' : NodeState) (b : Block)
    (hfirst : acceptBlock checkWork checkPoS checkBlock st b = (true, st')) :
    acceptBlock checkWork checkPoS checkBlock st' b = (true, st') := by
  obtain ⟨hw, hpos, hentry⟩ :=
    acceptBlock_success_entry checkWork checkPoS checkBlock st st' b hfirst
  unfold acceptBlock
  rw [if_neg (by simp [hw]), if_neg (by simp [hpos]), hentry]
  simp

/-- The node state after `wCbBlock` is accepted starting from an empty block
index: its index entry carries `BLOCK_HAVE_DATA`, and the block was written
to the block files. -/
def wDupState : NodeState :=
  { mapBlockIndex := fun h => if h = 1 then some ⟨true, false⟩
      else if h = 1 then some ⟨false, false⟩ else none,
    blockFiles := [1], coinViewBest := 0 }

/-- Witness for C7: the concrete block `wCbBlock`, accepted once from an
empty index (yielding `wDupState`), is accepted again with the state
unchanged. -/
theorem acceptBlock_duplicate_idempotent_witness :
    acceptBlock (fun _ => true) (fun _ => true) (fun _ => true) wDupState wCbBlock
      = (true, wDupState) :=
  acceptBlock_duplicate_idempotent (fun _ => true) (fun _ => true) (fun _ => true)
    { mapBlockIndex := fun _ => none, blockFiles := [], coinViewBest := 0 }
    wDupState wCbBlock (by rfl)

/-!
## C9 — ancestor queries: GetSkipHeight, BuildSkip, GetAncestor

A block-index node on a single parent chain is an inductive `pprev` list;
its height is its depth.  `pskip` is the pointer `BuildSkip`
(validation.cpp:3306) installs: the parent's ancestor at
`GetSkipHeight(nHeight)`.  The reference notion of "the ancestor at height
h" is the naive parent walk `ancestorAt`.
-/

/-- `InvertLowestOne(n)` (validation.cpp:3265): `n & (n - 1)` (heights are
non-negative, so `Nat`). -/
def InvertLowestOne (n : Nat) : Nat := n &&& (n - 1)

/-- `GetSkipHeight(height)` (validation.cpp:3268). -/
def GetSkipHeight (height : Nat) : Nat :=
  if height < 2 then 0
  else if height &&& 1 = 1 then InvertLowestOne (InvertLowestOne (height - 1)) + 1
  else InvertLowestOne height

/-- A block-index node: genesis, or a node with its parent (`pprev`). -/
inductive BlockIdx where
  | gen
  | node (pprev : BlockIdx)
deriving DecidableEq, Repr

/-- `CBlockIndex::nHeight`: 0 at genesis, parent height + 1. -/
def BlockIdx.nHeight : BlockIdx → Nat
  | .gen => 0
  | .node p => p.nHeight + 1

/-- The naive parent walk: the node at height `h` on the chain of `b` (or
`b` itself when `h ≥ b.nHeight`). -/
def BlockIdx.ancestorAt : BlockIdx → Nat → BlockIdx
  | .gen, _ => .gen
  | .node p, h => if p.nHeight + 1 ≤ h then .node p else p.ancestorAt h

/-- `a` lies on the parent chain of `b` (including `b` itself). -/
def BlockIdx.isAncestor : BlockIdx → BlockIdx → Prop
  | a, .gen => a = .gen
  | a, .node p => a = .node p ∨ a.isAncestor p

def BlockIdx.decIsAncestor : ∀ (a b : BlockIdx), Decidable (a.isAncestor b)
  | a, .gen => inferInstanceAs (Decidable (a = .gen))
  | a, .node p =>
    haveI : Decidable (a.isAncestor p) := BlockIdx.decIsAncestor a p
    inferInstanceAs (Decidable (a = .node p ∨ a.isAncestor p))

instance (a b : BlockIdx) : Decidable (a.isAncestor b) := BlockIdx.decIsAncestor a b

/-- The skip pointer that `CBlockIndex::BuildSkip` (validation.cpp:3306)
installs: none at genesis, else the parent's ancestor at
`GetSkipHeight(nHeight)` (expressed with the naive walk; the agreement with
the source's own `pprev->GetAncestor(GetSkipHeight(nHeight))` call is part
of the C9 theorem). -/
def BlockIdx.pskip : BlockIdx → Option BlockIdx
  | .gen => none
  | .node p => some (p.ancestorAt (GetSkipHeight (p.nHeight + 1)))

/-- `InvertLowestOne` is strictly decreasing on positive numbers. -/
theorem InvertLowestOne_le (n : Nat) : InvertLowestOne n ≤ n - 1 :=
  Nat.and_le_right

/-- `GetSkipHeight height < height` for positive heights (any number
strictly lower than `height` is acceptable, per the source comment). -/
theorem GetSkipHeight_lt (height : Nat) (h : 1 ≤ height) :
    GetSkipHeight height < height := by
  unfold GetSkipHeight
  by_cases h2 : height < 2
  · rw [if_pos h2]; omega
  · rw [if_neg h2]
    have h2' : 2 ≤ height := by omega
    split
    · have h1 : InvertLowestOne (height - 1) ≤ height - 2 := by
        have := InvertLowestOne_le (height - 1)
        omega
      have hh : InvertLowestOne (InvertLowestOne (height - 1)) ≤ height - 2 :=
        le_trans Nat.and_le_left h1
      omega
    · have := InvertLowestOne_le height
      omega

/-- Height of the naive ancestor: `min h (b.nHeight)`. -/
theorem BlockIdx.nHeight_ancestorAt : ∀ (b : BlockIdx) (h : Nat),
    (b.ancestorAt h).nHeight = min h b.nHeight
  | .gen, h => by simp [BlockIdx.ancestorAt, BlockIdx.nHeight]
  | .node p, h => by
    unfold BlockIdx.ancestorAt
    split
    · rename_i hle
      simp only [BlockIdx.nHeight]
      omega
    · rename_i hgt
      rw [BlockIdx.nHeight_ancestorAt p h]
      simp only [BlockIdx.nHeight]
      omega

/-- The naive ancestor is an ancestor. -/
theorem BlockIdx.ancestorAt_isAncestor : ∀ (b : BlockIdx) (h : Nat),
    (b.ancestorAt h).isAncestor b
  | .gen, h => by simp [BlockIdx.ancestorAt, BlockIdx.isAncestor]
  | .node p, h => by
    unfold BlockIdx.ancestorAt
    split
    · exact Or.inl rfl
    · exact Or.inr (BlockIdx.ancestorAt_isAncestor p h)

/-- Ancestors are no higher than their descendants. -/
theorem BlockIdx.isAncestor_nHeight_le : ∀ (a b : BlockIdx),
    a.isAncestor b → a.nHeight ≤ b.nHeight
  | a, .gen, h => by rw [show a = .gen from h]
  | a, .node p, h => by
    rcases h with rfl | h
    · exact le_rfl
    · have := BlockIdx.isAncestor_nHeight_le a p h
      simp only [BlockIdx.nHeight]
      omega

/-- At a fixed height, the ancestor is unique. -/
theorem BlockIdx.isAncestor_unique : ∀ (b a a' : BlockIdx),
    a.isAncestor b → a'.isAncestor b → a.nHeight = a'.nHeight → a = a'
  | .gen, a, a', ha, ha', _ => by
    rw [show a = .gen from ha, show a' = .gen from ha']
  | .node p, a, a', ha, ha', hh => by
    rcases ha with rfl | ha <;> rcases ha' with rfl | ha'
    · rfl
    · have := BlockIdx.isAncestor_nHeight_le a' p ha'
      simp only [BlockIdx.nHeight] at hh
      omega
    · have := BlockIdx.isAncestor_nHeight_le a p ha
      simp only [BlockIdx.nHeight] at hh
      omega
    · exact BlockIdx.isAncestor_unique p a a' ha ha' hh

/-- Ancestor of an ancestor is an ancestor. -/
theorem BlockIdx.isAncestor_trans : ∀ (c b a : BlockIdx),
    a.isAncestor b → b.isAncestor c → a.isAncestor c
  | .gen, b, a, hab, hbc => by
    rw [show b = .gen from hbc] at hab
    exact hab
  | .node p, b, a, hab, hbc => by
    rcases hbc with rfl | hbc
    · exact hab
    · exact Or.inr (BlockIdx.isAncestor_trans p b a hab hbc)

/-- Collapsing two naive walks: walking to `h` then to `h' ≤ h` is walking
to `h'`. -/
theorem BlockIdx.ancestorAt_ancestorAt (b : BlockIdx) (h h' : Nat) (hle : h' ≤ h) :
    (b.ancestorAt h).ancestorAt h' = b.ancestorAt h' := by
  apply BlockIdx.isAncestor_unique b
  · exact BlockIdx.isAncestor_trans b (b.ancestorAt h) _
      (BlockIdx.ancestorAt_isAncestor _ h') (BlockIdx.ancestorAt_isAncestor b h)
  · exact BlockIdx.ancestorAt_isAncestor b h'
  · rw [BlockIdx.nHeight_ancestorAt, BlockIdx.nHeight_ancestorAt,
      BlockIdx.nHeight_ancestorAt]
    omega

/-- The naive walk to a node's own height is the node itself. -/
theorem BlockIdx.ancestorAt_self : ∀ (b : BlockIdx), b.ancestorAt b.nHeight = b
  | .gen => rfl
  | .node p => by
    simp only [BlockIdx.ancestorAt, BlockIdx.nHeight]
    rw [if_pos le_rfl]

/-- Below a node's height, the naive walk steps through the parent. -/
theorem BlockIdx.ancestorAt_node_lt (p : BlockIdx) (h : Nat) (hlt : h < p.nHeight + 1) :
    (BlockIdx.node p).ancestorAt h = p.ancestorAt h := by
  simp only [BlockIdx.ancestorAt]
  rw [if_neg (by omega)]

/-- The walk of `CBlockIndex::GetAncestor` (validation.cpp:3283-3297): while
the walk height exceeds the target, follow `pskip` when its height lands on
or above the target and the "pprev->pskip isn't better" heuristic allows it,
else step to `pprev`.  For a walked node `node p` the skip target
`p.ancestorAt (GetSkipHeight heightWalk)` is exactly the pointer installed
by `BuildSkip` (see `BlockIdx.pskip`); it is never NULL off-genesis, and the
loop never walks at genesis.  `heightSkip - 2` is the source's `int`
subtraction; for `heightSkip < 2` both sides of the comparison make the
conjunct false, so `Nat` truncation agrees. -/
def getAncestorLoop (b : BlockIdx) (height : Nat) : BlockIdx :=
  if hwalk : height < b.nHeight then
    match b with
    | .gen => .gen
    | .node p =>
      let heightWalk := p.nHeight + 1
      let heightSkip := GetSkipHeight heightWalk
      let heightSkipPrev := GetSkipHeight (heightWalk - 1)
      if heightSkip = height ∨ (heightSkip > height ∧
          ¬(heightSkipPrev < heightSkip - 2 ∧ heightSkipPrev ≥ height)) then
        getAncestorLoop (p.ancestorAt heightSkip) height
      else
        getAncestorLoop p height
  else b
termination_by b.nHeight
decreasing_by
  · have h1 : GetSkipHeight (p.nHeight + 1) < p.nHeight + 1 :=
      GetSkipHeight_lt (p.nHeight + 1) (by omega)
    have h2 := BlockIdx.nHeight_ancestorAt p (GetSkipHeight (p.nHeight + 1))
    simp only [BlockIdx.nHeight]
    omega
  · simp only [BlockIdx.nHeight]
    omega

/-- The skip-accelerated walk computes the naive ancestor. -/
theorem getAncestorLoop_eq (n : Nat) : ∀ (b : BlockIdx), b.nHeight ≤ n →
    ∀ height, height ≤ b.nHeight →
    getAncestorLoop b height = b.ancestorAt height := by
  induction n with
  | zero =>
    intro b hbn height hle
    unfold getAncestorLoop
    rw [dif_neg (by omega)]
    have : height = b.nHeight := by omega
    rw [this, BlockIdx.ancestorAt_self]
  | succ n ih =>
    intro b hbn height hle
    unfold getAncestorLoop
    by_cases hwalk : height < b.nHeight
    · rw [dif_pos hwalk]
      cases b with
      | gen => simp [BlockIdx.nHeight] at hwalk
      | node p =>
        simp only []
        have hpn : p.nHeight ≤ n := by
          simp only [BlockIdx.nHeight] at hbn
          omega
        have hskip_lt : GetSkipHeight (p.nHeight + 1) < p.nHeight + 1 :=
          GetSkipHeight_lt (p.nHeight + 1) (by omega)
        have hstep : (BlockIdx.node p).ancestorAt height = p.ancestorAt height :=
          BlockIdx.ancestorAt_node_lt p height
            (by simp only [BlockIdx.nHeight] at hwalk; omega)
        split
        · rename_i hcond
          have hhs : height ≤ GetSkipHeight (p.nHeight + 1) := by
            rcases hcond with h | h
            · omega
            · omega
          have hsn : (p.ancestorAt (GetSkipHeight (p.nHeight + 1))).nHeight
              = GetSkipHeight (p.nHeight + 1) := by
            rw [BlockIdx.nHeight_ancestorAt]
            omega
          rw [ih (p.ancestorAt (GetSkipHeight (p.nHeight + 1)))
            (by rw [hsn]; omega) height (by rw [hsn]; exact hhs)]
          rw [BlockIdx.ancestorAt_ancestorAt p _ _ hhs, hstep]
        · have hle' : height ≤ p.nHeight := by
            simp only [BlockIdx.nHeight] at hwalk
            omega
          rw [ih p hpn height hle', hstep]
    · rw [dif_neg hwalk]
      have : height = b.nHeight := by omega
      rw [this, BlockIdx.ancestorAt_self]

/-- `CBlockIndex::GetAncestor(height)` (validation.cpp:3278-3281): NULL for
a height above the node or below 0, else the skip-accelerated walk. -/
def BlockIdx.getAncestor (b : BlockIdx) (height : Int) : Option BlockIdx :=
  if height > (b.nHeight : Int) ∨ height < 0 then none
  else some (getAncestorLoop b height.toNat)

/-- C9: with the skip pointers `BuildSkip` installs, `GetAncestor` answers
every ancestor-at-height query correctly: for `0 ≤ h ≤ nHeight` it returns
the unique ancestor at height `h` on the parent chain, for out-of-range `h`
it returns NULL; and the installed skip pointer itself is
`pprev->GetAncestor(GetSkipHeight(nHeight))`, as `BuildSkip` computes it. -/
theorem getAncestor_correct (b : BlockIdx) (height : Int) :
    (0 ≤ height → height ≤ (b.nHeight : Int) →
      ∃ a, b.getAncestor height = some a ∧ a.isAncestor b ∧ (a.nHeight : Int) = height ∧
        (∀ a', a'.isAncestor b → (a'.nHeight : Int) = height → a' = a)) ∧
    ((height < 0 ∨ (b.nHeight : Int) < height) → b.getAncestor height = none) ∧
    (∀ p, b = BlockIdx.node p →
      b.pskip = p.getAncestor (GetSkipHeight b.nHeight)) := by
  refine ⟨fun h0 hle => ?_, fun hout => ?_, fun p hp => ?_⟩
  · refine ⟨b.ancestorAt height.toNat, ?_, ?_, ?_, ?_⟩
    · unfold BlockIdx.getAncestor
      rw [if_neg (by omega)]
      rw [getAncestorLoop_eq b.nHeight b le_rfl height.toNat (by omega)]
    · exact BlockIdx.ancestorAt_isAncestor b height.toNat
    · rw [BlockIdx.nHeight_ancestorAt]
      omega
    · intro a' ha' hh'
      refine BlockIdx.isAncestor_unique b a' _ ha'
        (BlockIdx.ancestorAt_isAncestor b height.toNat) ?_
      rw [BlockIdx.nHeight_ancestorAt]
      omega
  · unfold BlockIdx.getAncestor
    rw [if_pos (by omega)]
  · subst hp
    have hlt : GetSkipHeight (p.nHeight + 1) < p.nHeight + 1 :=
      GetSkipHeight_lt (p.nHeight + 1) (by omega)
    unfold BlockIdx.getAncestor BlockIdx.pskip
    simp only [BlockIdx.nHeight]
    rw [if_neg (by omega)]
    simp only [Int.toNat_ofNat]
    rw [getAncestorLoop_eq p.nHeight p le_rfl _ (by omega)]

/-- A concrete chain of height 5. -/
def wChain5 : BlockIdx :=
  .node (.node (.node (.node (.node .gen))))

/-- Witness for C9: on the height-5 chain, `GetAncestor 3` returns the
height-3 node, and out-of-range queries return NULL. -/
theorem getAncestor_correct_witness :
    wChain5.getAncestor 3 = some (BlockIdx.node (BlockIdx.node (BlockIdx.node BlockIdx.gen))) ∧
    wChain5.getAncestor 7 = none ∧
    wChain5.getAncestor (-1) = none := by
  refine ⟨?_, (getAncestor_correct wChain5 7).2.1 (by decide),
    (getAncestor_correct wChain5 (-1)).2.1 (by decide)⟩
  obtain ⟨a, ha, _, hh, huniq⟩ := (getAncestor_correct wChain5 3).1 (by decide) (by decide)
  rw [ha]
  rw [← huniq (BlockIdx.node (BlockIdx.node (BlockIdx.node BlockIdx.gen)))
    (by decide) (by decide)]

/-!
## C8 — ActivateBestChainStep: contiguity, and the failure path

The active chain is the genesis-rooted list of connected blocks; the
most-work candidate is represented by its genesis-rooted path through the
index tree.  Each block carries what `ConnectTip` would do with it: connect
cleanly, fail a consensus rule (`state.IsInvalid()`), or hit a local fault
(disk/database error).  The embedding of `ActivateBestChainStep`
(validation.cpp:2125-2198) covers: the fork computation (`FindFork`), the
disconnect loop down to the fork (DisconnectTip, modelled as succeeding; its
own I/O-failure path returns early exactly like the connect-side one
refuted below), and the connect walk along the candidate path — on a
consensus-invalid block the step stops before it, resets the state and
still returns true (lines 2162-2169); on a system error it returns false at
once with the chain as it stands (lines 2170-2173); after a clean connect
that improves on the old tip's work it returns temporarily (lines
2176-2180).  The 32-block stride bookkeeping batches the same walk without
changing which blocks get connected.  `ActivateBestChain` forwards a step
failure immediately (validation.cpp:2240-2241) without touching the chain.
-/

/-- What `ConnectTip` does with a block. -/
inductive TipOutcome where
  | ok
  | invalid
  | sysfail
deriving DecidableEq, Repr

/-- A block on a chain path: hash, parent hash, cumulative work, and its
`ConnectTip` outcome. -/
structure ChainBlk where
  hash : Nat
  prevHash : Nat
  nChainWork : Nat
  connectOutcome : TipOutcome
deriving DecidableEq, Repr

/-- Contiguity of a chain: every block's parent hash is the previous
block's hash (the Active Chain invariant `ActiveChain[h].parent ==
ActiveChain[h-1]`). -/
def wellFormedChain (l : List ChainBlk) : Prop :=
  List.Chain' (fun a b => b.prevHash = a.hash) l

/-- Executable form of the contiguity predicate. -/
def wellFormedChainB : List ChainBlk → Bool
  | [] => true
  | [_] => true
  | a :: b :: rest => decide (b.prevHash = a.hash) && wellFormedChainB (b :: rest)

theorem wellFormedChainB_iff : ∀ l : List ChainBlk,
    wellFormedChainB l = true ↔ wellFormedChain l
  | [] => by simp [wellFormedChainB, wellFormedChain]
  | [a] => by simp [wellFormedChainB, wellFormedChain]
  | a :: b :: rest => by
    unfold wellFormedChainB wellFormedChain
    rw [List.chain'_cons]
    have := wellFormedChainB_iff (b :: rest)
    unfold wellFormedChain at this
    simp [this]

instance (l : List ChainBlk) : Decidable (wellFormedChain l) :=
  decidable_of_iff (wellFormedChainB l = true) (wellFormedChainB_iff l)

/-- `chainActive.FindFork(pindexMostWork)`: the common genesis-rooted prefix
of the active chain and the candidate path. -/
def commonPrefix : List ChainBlk → List ChainBlk → List ChainBlk
  | a :: as, b :: bs => if a = b then a :: commonPrefix as bs else []
  | _, _ => []

/-- The connect walk of `ActivateBestChainStep`: connect the blocks beyond
the fork in order; a consensus-invalid block stops the walk with success
(`fInvalidFound`), a system error aborts with failure, and a clean connect
that beats the old tip's work returns temporarily. -/
def connectLoop (oldTipWork : Option Nat) :
    List ChainBlk → List ChainBlk → Bool × List ChainBlk × Bool
  | [], chain => (true, chain, false)
  | b :: rest, chain =>
    if b.connectOutcome = .invalid then (true, chain, true)
    else if b.connectOutcome = .sysfail then (false, chain, false)
    else
      let chain' := chain ++ [b]
      if (match oldTipWork with | none => true | some w => decide (b.nChainWork > w)) = true then
        (true, chain', false)
      else connectLoop oldTipWork rest chain'

/-- `ActivateBestChainStep(state, pindexMostWork, ...)`: disconnect to the
fork, then run the connect walk from there along the candidate path.
Returns (success, resulting active chain, `fInvalidFound`). -/
def activateBestChainStep (chain target : List ChainBlk) :
    Bool × List ChainBlk × Bool :=
  let fork := commonPrefix chain target
  let oldTipWork := (chain.getLast?).map (fun b => b.nChainWork)
  connectLoop oldTipWork (target.drop fork.length) fork

/-- The fork prefix plus the remainder of the candidate path is the
candidate path. -/
theorem commonPrefix_append_drop : ∀ (l1 l2 : List ChainBlk),
    commonPrefix l1 l2 ++ l2.drop (commonPrefix l1 l2).length = l2
  | [], l2 => by simp [commonPrefix]
  | a :: as, [] => by simp [commonPrefix]
  | a :: as, b :: bs => by
    unfold commonPrefix
    by_cases h : a = b
    · rw [if_pos h]
      simp only [List.length_cons, List.cons_append, List.drop_succ_cons]
      rw [commonPrefix_append_drop as bs, h]
    · rw [if_neg h]
      simp

/-- Members of the fork prefix are members of the active chain. -/
theorem commonPrefix_mem_left : ∀ (l1 l2 : List ChainBlk) (b : ChainBlk),
    b ∈ commonPrefix l1 l2 → b ∈ l1
  | [], l2, b => by simp [commonPrefix]
  | a :: as, [], b => by simp [commonPrefix]
  | a :: as, c :: cs, b => by
    unfold commonPrefix
    by_cases h : a = c
    · rw [if_pos h]
      intro hb
      rcases List.mem_cons.mp hb with rfl | hb
      · exact List.mem_cons_self _ _
      · exact List.mem_cons_of_mem _ (commonPrefix_mem_left as cs b hb)
    · rw [if_neg h]
      simp

/-- Invariant of the connect walk: starting from a chain whose continuation
by the pending blocks is contiguous, every intermediate and final chain is
contiguous and consists of already-present blocks plus cleanly-connected
ones. -/
theorem connectLoop_wf (P : ChainBlk → Prop) (oldW : Option Nat) :
    ∀ (toConnect acc : List ChainBlk),
    wellFormedChain (acc ++ toConnect) →
    (∀ b ∈ acc, P b) →
    (∀ b ∈ toConnect, b.connectOutcome = TipOutcome.ok → P b) →
    wellFormedChain (connectLoop oldW toConnect acc).2.1 ∧
    ∀ b ∈ (connectLoop oldW toConnect acc).2.1, P b
  | [], acc, hwf, hacc, _ => by
    simp only [connectLoop]
    exact ⟨by simpa using hwf, hacc⟩
  | b :: rest, acc, hwf, hacc, hnew => by
    unfold connectLoop
    by_cases hinv : b.connectOutcome = TipOutcome.invalid
    · rw [if_pos hinv]
      exact ⟨(List.chain'_append.mp hwf).1, hacc⟩
    · rw [if_neg hinv]
      by_cases hsys : b.connectOutcome = TipOutcome.sysfail
      · rw [if_pos hsys]
        exact ⟨(List.chain'_append.mp hwf).1, hacc⟩
      · rw [if_neg hsys]
        have hb : b.connectOutcome = TipOutcome.ok := by
          cases hob : b.connectOutcome <;> simp_all
        have hassoc : (acc ++ [b]) ++ rest = acc ++ b :: rest := by
          simp
        have hwf' : wellFormedChain ((acc ++ [b]) ++ rest) := by
          rw [hassoc]
          exact hwf
        have hPb : P b := hnew b (List.mem_cons_self _ _) hb
        have hacc' : ∀ x ∈ acc ++ [b], P x := by
          intro x hx
          rcases List.mem_append.mp hx with hx | hx
          · exact hacc x hx
          · rw [List.mem_singleton.mp hx]
            exact hPb
        split
        · exact ⟨(List.chain'_append.mp hwf').1, hacc'⟩
        · exact connectLoop_wf P oldW rest (acc ++ [b]) hwf' hacc'
            (fun x hx hox => hnew x (List.mem_cons_of_mem _ hx) hox)

/-- C8 (amended): whenever `ActivateBestChainStep` returns — success or
failure — the active chain is still a single contiguous genesis-rooted
path, and it never contains a block the validator did not connect cleanly
(the engine never connects past a known-bad node).  The original claim's
further assertion — that a failing step leaves the tip where it was before
the attempt — is refuted by `activateBestChainStep_counterexample` below. -/
theorem activateBestChainStep_contiguous (chain target : List ChainBlk)
    (hwc : wellFormedChain chain) (hwt : wellFormedChain target) :
    wellFormedChain (activateBestChainStep chain target).2.1 ∧
    ∀ b ∈ (activateBestChainStep chain target).2.1,
      b ∈ chain ∨ b.connectOutcome = TipOutcome.ok := by
  unfold activateBestChainStep
  simp only []
  apply connectLoop_wf (fun b => b ∈ chain ∨ b.connectOutcome = TipOutcome.ok)
  · rw [commonPrefix_append_drop chain target]
    exact hwt
  · intro b hb
    exact Or.inl (commonPrefix_mem_left chain target b hb)
  · intro b _ hob
    exact Or.inr hob

/-- The pre-attempt active chain of the C8 counterexample: genesis and two
connected blocks. -/
def wC8chain : List ChainBlk :=
  [⟨0, 99, 1, .ok⟩, ⟨1, 0, 2, .ok⟩, ⟨2, 1, 3, .ok⟩]

/-- A higher-work candidate path forking at genesis whose first new block
hits a local fault on connect. -/
def wC8target : List ChainBlk :=
  [⟨0, 99, 1, .ok⟩, ⟨3, 0, 4, .sysfail⟩, ⟨4, 3, 6, .ok⟩]

/-- C8 counterexample: reorganizing from `wC8chain` toward `wC8target`
disconnects down to genesis, then the connect fails with a local fault, and
`ActivateBestChainStep` returns failure with the chain left at the fork
point — the pre-attempt tip (hash 2) is NOT restored.  This refutes the
claim that on failure the tip is the same as before the attempt (the chain
does remain contiguous). -/
theorem activateBestChainStep_counterexample :
    (activateBestChainStep wC8chain wC8target).1 = false ∧
    (activateBestChainStep wC8chain wC8target).2.1 = [⟨0, 99, 1, .ok⟩] ∧
    wC8chain.getLast? ≠ (activateBestChainStep wC8chain wC8target).2.1.getLast? ∧
    wellFormedChain (activateBestChainStep wC8chain wC8target).2.1 := by
  decide

/-- Witness for C8 (amended) at the counterexample's concrete inputs. -/
theorem activateBestChainStep_contiguous_witness :
    wellFormedChain (activateBestChainStep wC8chain wC8target).2.1 ∧
    ∀ b ∈ (activateBestChainStep wC8chain wC8target).2.1,
      b ∈ wC8chain ∨ b.connectOutcome = TipOutcome.ok :=
  activateBestChainStep_contiguous wC8chain wC8target (by decide) (by decide)

/-!
## C2 — Connect/Disconnect round trip

The round trip is proved per transaction and composed in reverse order.
The characterization lemmas below describe, pointwise, the effect on the
coin map of (a) the input-spending fold of `UpdateCoins`, (b) `AddCoins`,
(c) the output-removal loop of `DisconnectBlock`, and (d) the undo
restoration loop.
-/

/-- Views are equal when their coin maps and best-block pointers agree. -/
theorem CoinsView.ext' (a b : CoinsView)
    (hc : ∀ o, a.coins o = b.coins o) (hb : a.bestBlock = b.bestBlock) : a = b := by
  cases a
  cases b
  simp only [CoinsView.mk.injEq]
  exact ⟨funext hc, hb⟩

/-- The input-spending fold of `UpdateCoins` (validation.cpp:947-951) with
pairwise-distinct prevouts: the undo records are the coins of the spent
prevouts (read in the starting view), the prevouts are cleared, everything
else — the rest of the map and the best-block pointer — is untouched. -/
theorem spendFold_spec : ∀ (vin : List CTxIn) (V : CoinsView) (u0 : TxUndo),
    (vin.map (fun i => i.prevout)).Nodup →
    (vin.foldl (fun acc txin =>
        let (v', c) := acc.1.spendCoin txin.prevout
        (v', acc.2 ++ [c])) (V, u0)).2
      = u0 ++ vin.map (fun i => V.coins i.prevout) ∧
    (∀ o, (vin.foldl (fun acc txin =>
        let (v', c) := acc.1.spendCoin txin.prevout
        (v', acc.2 ++ [c])) (V, u0)).1.coins o
      = if o ∈ vin.map (fun i => i.prevout) then none else V.coins o) ∧
    (vin.foldl (fun acc txin =>
        let (v', c) := acc.1.spendCoin txin.prevout
        (v', acc.2 ++ [c])) (V, u0)).1.bestBlock = V.bestBlock
  | [], V, u0, _ => by simp
  | txin :: rest, V, u0, hnodup => by
    simp only [List.map_cons, List.nodup_cons] at hnodup
    have ih := spendFold_spec rest
      { coins := fun o' => if o' = txin.prevout then none else V.coins o',
        bestBlock := V.bestBlock }
      (u0 ++ [V.coins txin.prevout]) hnodup.2
    simp only [CoinsView.spendCoin] at ih
    simp only [List.foldl_cons, CoinsView.spendCoin]
    refine ⟨?_, fun o => ?_, ih.2.2⟩
    · rw [ih.1]
      simp only [List.map_cons, List.append_assoc, List.singleton_append]
      congr 2
      apply List.map_congr_left
      intro i hi
      rw [if_neg]
      intro heq
      exact hnodup.1 (heq ▸ List.mem_map_of_mem (fun i => i.prevout) hi)
    · rw [ih.2.1 o]
      simp only [List.map_cons, List.mem_cons]
      by_cases h1 : o ∈ rest.map (fun i => i.prevout)
      · rw [if_pos h1, if_pos (Or.inr h1)]
      · rw [if_neg h1]
        by_cases h2 : o = txin.prevout
        · simp [h2]
        · simp only [if_neg h2, if_neg (show ¬(o = txin.prevout ∨
            o ∈ rest.map (fun i => i.prevout)) from by tauto)]

/-- Outputs that never enter the coin view (see `addCoins` /
`DisconnectBlock`). -/
def skipOut (o : CTxOut) : Bool := o.isUnspendable || o.isZerocoinMint

/-- The `AddCoins` fold leaves the best-block pointer alone. -/
theorem addFold_bestBlock (txid : Nat) (nH : Int) (cb cs : Bool) :
    ∀ (ps : List (Nat × CTxOut)) (W : CoinsView),
    (ps.foldl (fun acc oi =>
        if oi.2.isUnspendable || oi.2.isZerocoinMint then acc
        else acc.addCoin ⟨txid, oi.1⟩ (mkCoin oi.2 nH cb cs)) W).bestBlock = W.bestBlock
  | [], W => rfl
  | oi :: rest, W => by
    simp only [List.foldl_cons]
    split
    · exact addFold_bestBlock txid nH cb cs rest W
    · exact addFold_bestBlock txid nH cb cs rest _

/-- Outpoints not written by the `AddCoins` fold keep their value. -/
theorem addFold_coins_other (txid : Nat) (nH : Int) (cb cs : Bool) :
    ∀ (ps : List (Nat × CTxOut)) (W : CoinsView) (o : OutPoint),
    (∀ oi ∈ ps, o ≠ ⟨txid, oi.1⟩ ∨ skipOut oi.2 = true) →
    (ps.foldl (fun acc oi =>
        if oi.2.isUnspendable || oi.2.isZerocoinMint then acc
        else acc.addCoin ⟨txid, oi.1⟩ (mkCoin oi.2 nH cb cs)) W).coins o = W.coins o
  | [], W, o, _ => rfl
  | oi :: rest, W, o, hmiss => by
    simp only [List.foldl_cons]
    by_cases hskip : (oi.2.isUnspendable || oi.2.isZerocoinMint) = true
    · rw [if_pos hskip]
      exact addFold_coins_other txid nH cb cs rest W o
        (fun x hx => hmiss x (List.mem_cons_of_mem _ hx))
    · rw [if_neg hskip]
      rw [addFold_coins_other txid nH cb cs rest _ o
        (fun x hx => hmiss x (List.mem_cons_of_mem _ hx))]
      have hne : o ≠ ⟨txid, oi.1⟩ := by
        rcases hmiss oi (List.mem_cons_self _ _) with h | h
        · exact h
        · exact absurd h (by simpa [skipOut] using hskip)
      simp only [CoinsView.addCoin]
      rw [if_neg hne]

/-- An outpoint of a non-skipped pair (with pairwise-distinct indices) ends
up holding the corresponding coin. -/
theorem addFold_coins_hit (txid : Nat) (nH : Int) (cb cs : Bool) :
    ∀ (ps : List (Nat × CTxOut)) (W : CoinsView) (j : Nat) (out : CTxOut),
    (ps.map Prod.fst).Nodup →
    (j, out) ∈ ps → skipOut out = false →
    (ps.foldl (fun acc oi =>
        if oi.2.isUnspendable || oi.2.isZerocoinMint then acc
        else acc.addCoin ⟨txid, oi.1⟩ (mkCoin oi.2 nH cb cs)) W).coins ⟨txid, j⟩
      = some (mkCoin out nH cb cs)
  | [], _, _, _, _, hm, _ => by simp at hm
  | oi :: rest, W, j, out, hnodup, hm, hskip => by
    simp only [List.map_cons, List.nodup_cons] at hnodup
    simp only [List.foldl_cons]
    rcases List.mem_cons.mp hm with rfl | hm'
    · rw [if_neg (by simpa [skipOut] using hskip)]
      rw [addFold_coins_other txid nH cb cs rest _ ⟨txid, j⟩ (fun x hx => Or.inl (by
        intro heq
        apply hnodup.1
        have hx1 : (j, out).1 = x.1 := by
          simpa using congrArg OutPoint.n heq
        rw [hx1]
        exact List.mem_map_of_mem Prod.fst hx))]
      simp [CoinsView.addCoin]
    · exact addFold_coins_hit txid nH cb cs rest _ j out hnodup.2 hm' hskip

/-- The output-removal loop of `DisconnectBlock`: when every non-skipped
pair's outpoint holds a coin whose output matches the block (and indices
are pairwise distinct), the removal is clean, clears exactly those
outpoints, and leaves the best-block pointer alone. -/
theorem disconnectOutputs_spec (txid : Nat) :
    ∀ (ps : List (Nat × CTxOut)) (W : CoinsView) (clean : Bool),
    (ps.map Prod.fst).Nodup →
    (∀ oi ∈ ps, skipOut oi.2 = false →
      ∃ c, W.coins ⟨txid, oi.1⟩ = some c ∧ c.out = oi.2) →
    (disconnectOutputs txid ps W clean).2 = clean ∧
    (∀ o, (disconnectOutputs txid ps W clean).1.coins o =
      if ∃ oi ∈ ps, o = OutPoint.mk txid oi.1 ∧ skipOut oi.2 = false
      then none else W.coins o) ∧
    (disconnectOutputs txid ps W clean).1.bestBlock = W.bestBlock
  | [], W, clean, _, _ => by simp [disconnectOutputs]
  | (j, out) :: rest, W, clean, hnodup, hmatch => by
    simp only [List.map_cons, List.nodup_cons] at hnodup
    unfold disconnectOutputs
    by_cases hskip : (out.isUnspendable || out.isZerocoinMint) = true
    · rw [if_pos hskip]
      have ih := disconnectOutputs_spec txid rest W clean hnodup.2
        (fun x hx hsx => hmatch x (List.mem_cons_of_mem _ hx) hsx)
      refine ⟨ih.1, fun o => ?_, ih.2.2⟩
      rw [ih.2.1 o]
      by_cases hin : ∃ oi ∈ rest, o = OutPoint.mk txid oi.1 ∧ skipOut oi.2 = false
      · rw [if_pos hin, if_pos (by
          obtain ⟨oi, hoi, h1, h2⟩ := hin
          exact ⟨oi, List.mem_cons_of_mem _ hoi, h1, h2⟩)]
      · rw [if_neg hin, if_neg (by
          rintro ⟨oi, hoi, h1, h2⟩
          rcases List.mem_cons.mp hoi with rfl | hoi'
          · simp only [skipOut] at h2
            rw [hskip] at h2
            exact absurd h2 (by simp)
          · exact hin ⟨oi, hoi', h1, h2⟩)]
    · rw [if_neg hskip]
      simp only [CoinsView.spendCoin]
      obtain ⟨c, hc, hcout⟩ := hmatch (j, out) (List.mem_cons_self _ _)
        (by simpa [skipOut] using hskip)
      have hW' := disconnectOutputs_spec txid rest
        { coins := fun o' => if o' = ⟨txid, j⟩ then none else W.coins o',
          bestBlock := W.bestBlock }
        (clean && decide (out = ((W.coins ⟨txid, j⟩).map (fun c => c.out)).getD defaultTxOut))
        hnodup.2
        (fun x hx hsx => by
          obtain ⟨c', hc', hcout'⟩ := hmatch x (List.mem_cons_of_mem _ hx) hsx
          refine ⟨c', ?_, hcout'⟩
          simp only []
          rw [if_neg (by
            intro heq
            apply hnodup.1
            have : x.1 = j := by simpa using congrArg OutPoint.n heq
            rw [← this]
            exact List.mem_map_of_mem Prod.fst hx), hc'])
      have hcleanarg : (clean && decide (out =
          ((W.coins ⟨txid, j⟩).map (fun c => c.out)).getD defaultTxOut)) = clean := by
        rw [hc]
        simp [hcout]
      constructor
      · rw [show (disconnectOutputs txid rest _ _).2 = _ from hW'.1, hcleanarg]
      refine ⟨fun o => ?_, hW'.2.2⟩
      rw [hW'.2.1 o]
      by_cases hin : ∃ oi ∈ rest, o = OutPoint.mk txid oi.1 ∧ skipOut oi.2 = false
      · rw [if_pos hin, if_pos (by
          obtain ⟨oi, hoi, h1, h2⟩ := hin
          exact ⟨oi, List.mem_cons_of_mem _ hoi, h1, h2⟩)]
      · rw [if_neg hin]
        simp only []
        by_cases ho : o = OutPoint.mk txid j
        · rw [if_pos ho, if_pos ⟨(j, out), List.mem_cons_self _ _, ho,
            by simpa [skipOut] using hskip⟩]
        · rw [if_neg ho, if_neg (by
            rintro ⟨oi, hoi, h1, h2⟩
            rcases List.mem_cons.mp hoi with rfl | hoi'
            · exact ho h1
            · exact hin ⟨oi, hoi', h1, h2⟩)]

/-- The undo-restoration loop of `DisconnectBlock`: with pairwise-distinct
prevouts, proper undo records (present, with height metadata), and no coin
sitting at any of the prevouts, the restoration is clean, writes each undo
coin back at its prevout, and leaves everything else alone. -/
theorem restoreInputs_spec (maxOut : Nat) :
    ∀ (q : List (CTxIn × Option Coin)) (S : CoinsView) (clean : Bool),
    (q.map (fun p => p.1.prevout)).Nodup →
    (∀ p ∈ q, ∃ c, p.2 = some c ∧ c.nHeight ≠ 0) →
    (∀ p ∈ q, S.coins p.1.prevout = none) →
    ∃ S', restoreInputs maxOut q S clean = .ok (S', clean) ∧
      (∀ o, S'.coins o =
        match q.find? (fun p => p.1.prevout = o) with
        | some p => p.2
        | none => S.coins o) ∧
      S'.bestBlock = S.bestBlock
  | [], S, clean, _, _, _ => ⟨S, rfl, fun o => by simp, rfl⟩
  | (txin, undo) :: rest, S, clean, hnodup, hundo, hnone => by
    simp only [List.map_cons, List.nodup_cons] at hnodup
    obtain ⟨c, hc, hch⟩ := hundo (txin, undo) (List.mem_cons_self _ _)
    have hc' : undo = some c := hc
    subst hc'
    have hSnone : S.coins txin.prevout = none := hnone (txin, some c) (List.mem_cons_self _ _)
    have happly : applyTxInUndo (some c) S txin.prevout maxOut
        = (.DISCONNECT_OK, S.addCoin txin.prevout c) := by
      unfold applyTxInUndo
      simp only [CoinsView.haveCoin, hSnone, Option.isSome_none, Bool.not_false,
        if_neg hch]
      simp
    unfold restoreInputs
    rw [happly]
    simp only []
    rw [show (clean && decide (DisconnectResult.DISCONNECT_OK
        ≠ DisconnectResult.DISCONNECT_UNCLEAN)) = clean from by simp]
    obtain ⟨S', hS', hSc, hSb⟩ := restoreInputs_spec maxOut rest (S.addCoin txin.prevout c)
      clean hnodup.2
      (fun p hp => hundo p (List.mem_cons_of_mem _ hp))
      (fun p hp => by
        simp only [CoinsView.addCoin]
        rw [if_neg (by
          intro heq
          exact hnodup.1 (heq ▸ List.mem_map_of_mem (fun p => p.1.prevout) hp))]
        exact hnone p (List.mem_cons_of_mem _ hp))
    refine ⟨S', hS', fun o => ?_, by rw [hSb]; rfl⟩
    rw [hSc o]
    by_cases ho : txin.prevout = o
    · rw [List.find?_cons_of_pos _ (by simp [ho])]
      have hrest : rest.find? (fun p => p.1.prevout = o) = none := by
        rw [List.find?_eq_none]
        intro p hp
        simp only [decide_eq_true_eq]
        intro heq
        apply hnodup.1
        rw [ho, ← heq]
        exact List.mem_map_of_mem (fun p => p.1.prevout) hp
      rw [hrest]
      simp only [CoinsView.addCoin]
      rw [if_pos ho.symm]
    · rw [List.find?_cons_of_neg _ (by simp [ho])]
      cases hfind : rest.find? (fun p => p.1.prevout = o) with
      | some p => rfl
      | none =>
        simp only [CoinsView.addCoin]
        rw [if_neg (fun heq => ho heq.symm)]

/-- The spent view after marking a transaction's inputs spent. -/
def spentView (tx : Tx) (V : CoinsView) : CoinsView :=
  { coins := fun o => if o ∈ tx.vin.map (fun i => i.prevout) then none else V.coins o,
    bestBlock := V.bestBlock }

/-- `UpdateCoins` on a non-coinbase, non-zerocoin transaction: the undo data
is the list of spent coins and the resulting view is `AddCoins` over the
spent view. -/
theorem updateCoins_nonCb (tx : Tx) (V : CoinsView) (nH : Int)
    (hcb : tx.isCoinBase = false) (hzc : tx.hasZerocoinSpendInputs = false)
    (hnodup : (tx.vin.map (fun i => i.prevout)).Nodup) :
    (updateCoins tx V nH).2 = tx.vin.map (fun i => V.coins i.prevout) ∧
    (updateCoins tx V nH).1 = addCoins (spentView tx V) tx nH := by
  have hspec := spendFold_spec tx.vin V [] hnodup
  have hv1 : (tx.vin.foldl (fun acc txin =>
      let (v', c) := acc.1.spendCoin txin.prevout
      (v', acc.2 ++ [c])) (V, ([] : TxUndo))).1 = spentView tx V :=
    CoinsView.ext' _ _ (fun o => hspec.2.1 o) hspec.2.2
  have hu : (tx.vin.foldl (fun acc txin =>
      let (v', c) := acc.1.spendCoin txin.prevout
      (v', acc.2 ++ [c])) (V, ([] : TxUndo))).2
      = tx.vin.map (fun i => V.coins i.prevout) := by
    simpa using hspec.1
  unfold updateCoins
  rw [if_pos (by simp [hcb, hzc])]
  exact ⟨hu, congrArg (fun w => addCoins w tx nH) hv1⟩

/-- Per-transaction round trip (non-coinbase, non-zerocoin): removing the
outputs `UpdateCoins` added is clean and yields the spent view, and
restoring the inputs from the undo records is clean and yields the original
view. -/
theorem updateCoins_roundtrip (maxOut : Nat) (tx : Tx) (V : CoinsView) (nH : Int)
    (hcb : tx.isCoinBase = false) (hzc : tx.hasZerocoinSpendInputs = false)
    (hnz : nH ≠ 0)
    (hnodup : (tx.vin.map (fun i => i.prevout)).Nodup)
    (hself : ∀ i ∈ tx.vin, i.prevout.hash ≠ tx.txid)
    (hpres : ∀ i ∈ tx.vin, (V.coins i.prevout).isSome)
    (hhei : ∀ o c, V.coins o = some c → c.nHeight ≠ 0)
    (hfresh : ∀ j, V.coins ⟨tx.txid, j⟩ = none)
    (clean : Bool) :
    (updateCoins tx V nH).2.length = tx.vin.length ∧
    (disconnectOutputs tx.txid tx.vout.enum (updateCoins tx V nH).1 clean).2 = clean ∧
    restoreInputs maxOut ((tx.vin.zip (updateCoins tx V nH).2).reverse)
      (disconnectOutputs tx.txid tx.vout.enum (updateCoins tx V nH).1 clean).1 clean
      = .ok (V, clean) := by
  obtain ⟨hundo, hV1⟩ := updateCoins_nonCb tx V nH hcb hzc hnodup
  have hulen : (updateCoins tx V nH).2.length = tx.vin.length := by
    rw [hundo, List.length_map]
  have henum : (tx.vout.enum.map Prod.fst).Nodup := by
    rw [List.enum_map_fst]
    exact List.nodup_range _
  -- the outputs sitting in the connected view
  have hhit : ∀ oi ∈ tx.vout.enum, skipOut oi.2 = false →
      ∃ c, (updateCoins tx V nH).1.coins ⟨tx.txid, oi.1⟩ = some c ∧ c.out = oi.2 := by
    intro oi hoi hsk
    refine ⟨mkCoin oi.2 nH tx.isCoinBase tx.isCoinStake, ?_, rfl⟩
    rw [hV1]
    unfold addCoins
    exact addFold_coins_hit tx.txid nH tx.isCoinBase tx.isCoinStake tx.vout.enum
      (spentView tx V) oi.1 oi.2 henum (by simpa using hoi) hsk
  obtain ⟨hdclean, hdcoins, hdbest⟩ :=
    disconnectOutputs_spec tx.txid tx.vout.enum (updateCoins tx V nH).1 clean henum hhit
  refine ⟨hulen, hdclean, ?_⟩
  -- the zip of inputs and undo records
  have hzipAux : ∀ (l : List CTxIn), l.zip (l.map (fun i => V.coins i.prevout))
      = l.map (fun i => (i, V.coins i.prevout)) := by
    intro l
    induction l with
    | nil => rfl
    | cons a as ih => simp [ih]
  have hzip : tx.vin.zip (updateCoins tx V nH).2
      = tx.vin.map (fun i => (i, V.coins i.prevout)) := by
    rw [hundo, hzipAux tx.vin]
  have hqmem : ∀ p ∈ (tx.vin.zip (updateCoins tx V nH).2).reverse,
      p.1 ∈ tx.vin ∧ p.2 = V.coins p.1.prevout := by
    intro p hp
    rw [List.mem_reverse, hzip] at hp
    obtain ⟨i, hi, rfl⟩ := List.mem_map.mp hp
    exact ⟨hi, rfl⟩
  have hqnodup : ((tx.vin.zip (updateCoins tx V nH).2).reverse.map
      (fun p => p.1.prevout)).Nodup := by
    rw [List.map_reverse]
    apply List.nodup_reverse.mpr
    rw [hzip, List.map_map]
    exact hnodup
  have hrundo : ∀ p ∈ (tx.vin.zip (updateCoins tx V nH).2).reverse,
      ∃ c, p.2 = some c ∧ c.nHeight ≠ 0 := by
    intro p hp
    obtain ⟨hi, hp2⟩ := hqmem p hp
    obtain ⟨c, hc⟩ := Option.isSome_iff_exists.mp (hpres p.1 hi)
    exact ⟨c, by rw [hp2, hc], hhei _ c hc⟩
  have hSnone : ∀ p ∈ (tx.vin.zip (updateCoins tx V nH).2).reverse,
      (disconnectOutputs tx.txid tx.vout.enum (updateCoins tx V nH).1 clean).1.coins
        p.1.prevout = none := by
    intro p hp
    obtain ⟨hi, _⟩ := hqmem p hp
    rw [hdcoins p.1.prevout]
    by_cases hex : ∃ oi ∈ tx.vout.enum,
        p.1.prevout = OutPoint.mk tx.txid oi.1 ∧ skipOut oi.2 = false
    · rw [if_pos hex]
    · rw [if_neg hex, hV1]
      unfold addCoins
      rw [addFold_coins_other _ _ _ _ _ _ _ (fun oi hoi => Or.inl (by
        intro heq
        exact hself p.1 hi (by rw [heq])))]
      simp only [spentView]
      rw [if_pos (List.mem_map_of_mem _ hi)]
  obtain ⟨S', hS', hScoins, hSbest⟩ := restoreInputs_spec maxOut
    ((tx.vin.zip (updateCoins tx V nH).2).reverse)
    (disconnectOutputs tx.txid tx.vout.enum (updateCoins tx V nH).1 clean).1
    clean hqnodup hrundo hSnone
  rw [hS']
  have hSV : S' = V := by
    apply CoinsView.ext'
    · intro o
      rw [hScoins o]
      cases hfind : ((tx.vin.zip (updateCoins tx V nH).2).reverse).find?
          (fun p => p.1.prevout = o) with
      | some p =>
        have hpq := List.mem_of_find?_eq_some hfind
        have hpred : p.1.prevout = o := by
          have := List.find?_some hfind
          simpa using this
        obtain ⟨hi, hp2⟩ := hqmem p hpq
        show p.2 = V.coins o
        rw [hp2, hpred]
      | none =>
        have hnot := List.find?_eq_none.mp hfind
        show (disconnectOutputs tx.txid tx.vout.enum (updateCoins tx V nH).1 clean).1.coins o
          = V.coins o
        rw [hdcoins o]
        by_cases hex : ∃ oi ∈ tx.vout.enum,
            o = OutPoint.mk tx.txid oi.1 ∧ skipOut oi.2 = false
        · rw [if_pos hex]
          obtain ⟨oi, _, rfl, _⟩ := hex
          rw [hfresh oi.1]
        · rw [if_neg hex, hV1]
          unfold addCoins
          rw [addFold_coins_other _ _ _ _ _ _ _ (fun oi hoi => by
            by_cases hsk : skipOut oi.2 = true
            · exact Or.inr hsk
            · refine Or.inl ?_
              intro heq
              exact hex ⟨oi, hoi, heq, by simpa using hsk⟩)]
          simp only [spentView]
          rw [if_neg (by
            intro hmem
            obtain ⟨i, hi, hio⟩ := List.mem_map.mp hmem
            refine hnot (i, V.coins i.prevout) ?_ (by simpa using hio)
            rw [List.mem_reverse, hzip]
            exact List.mem_map_of_mem _ hi)]
    · rw [hSbest, hdbest, hV1]
      unfold addCoins
      rw [addFold_bestBlock]
      rfl
  rw [hSV]

/-- Per-transaction round trip for the coinbase: `UpdateCoins` spends
nothing, so removing its outputs alone restores the view. -/
theorem updateCoins_coinbase_roundtrip (tx : Tx) (V : CoinsView) (nH : Int)
    (hcb : tx.isCoinBase = true)
    (hfresh : ∀ j, V.coins ⟨tx.txid, j⟩ = none)
    (clean : Bool) :
    disconnectOutputs tx.txid tx.vout.enum (updateCoins tx V nH).1 clean = (V, clean) := by
  have henum : (tx.vout.enum.map Prod.fst).Nodup := by
    rw [List.enum_map_fst]
    exact List.nodup_range _
  have hV1 : (updateCoins tx V nH).1 = addCoins V tx nH := by
    unfold updateCoins
    rw [if_neg (by simp [hcb])]
  have hhit : ∀ oi ∈ tx.vout.enum, skipOut oi.2 = false →
      ∃ c, (updateCoins tx V nH).1.coins ⟨tx.txid, oi.1⟩ = some c ∧ c.out = oi.2 := by
    intro oi hoi hsk
    refine ⟨mkCoin oi.2 nH tx.isCoinBase tx.isCoinStake, ?_, rfl⟩
    rw [hV1]
    unfold addCoins
    exact addFold_coins_hit tx.txid nH tx.isCoinBase tx.isCoinStake tx.vout.enum
      V oi.1 oi.2 henum (by simpa using hoi) hsk
  obtain ⟨hdclean, hdcoins, hdbest⟩ :=
    disconnectOutputs_spec tx.txid tx.vout.enum (updateCoins tx V nH).1 clean henum hhit
  have hpair : disconnectOutputs tx.txid tx.vout.enum (updateCoins tx V nH).1 clean
      = ((disconnectOutputs tx.txid tx.vout.enum (updateCoins tx V nH).1 clean).1,
         (disconnectOutputs tx.txid tx.vout.enum (updateCoins tx V nH).1 clean).2) := rfl
  rw [hpair, hdclean]
  congr 1
  apply CoinsView.ext'
  · intro o
    rw [hdcoins o]
    by_cases hex : ∃ oi ∈ tx.vout.enum,
        o = OutPoint.mk tx.txid oi.1 ∧ skipOut oi.2 = false
    · rw [if_pos hex]
      obtain ⟨oi, _, rfl, _⟩ := hex
      rw [hfresh oi.1]
    · rw [if_neg hex, hV1]
      unfold addCoins
      rw [addFold_coins_other _ _ _ _ _ _ _ (fun oi hoi => by
        by_cases hsk : skipOut oi.2 = true
        · exact Or.inr hsk
        · refine Or.inl ?_
          intro heq
          exact hex ⟨oi, hoi, heq, by simpa using hsk⟩)]
  · rw [hdbest, hV1]
    unfold addCoins
    rw [addFold_bestBlock]


/-- Any coin present after `AddCoins` is an old coin or one of the freshly
created ones. -/
theorem addFold_coins_cases (txid : Nat) (nH : Int) (cb cs : Bool) :
    ∀ (ps : List (Nat × CTxOut)) (W : CoinsView) (o : OutPoint),
    (ps.foldl (fun acc oi =>
        if oi.2.isUnspendable || oi.2.isZerocoinMint then acc
        else acc.addCoin ⟨txid, oi.1⟩ (mkCoin oi.2 nH cb cs)) W).coins o = W.coins o ∨
    ∃ out, (ps.foldl (fun acc oi =>
        if oi.2.isUnspendable || oi.2.isZerocoinMint then acc
        else acc.addCoin ⟨txid, oi.1⟩ (mkCoin oi.2 nH cb cs)) W).coins o
      = some (mkCoin out nH cb cs)
  | [], W, o => Or.inl rfl
  | oi :: rest, W, o => by
    simp only [List.foldl_cons]
    by_cases hskip : (oi.2.isUnspendable || oi.2.isZerocoinMint) = true
    · rw [if_pos hskip]
      exact addFold_coins_cases txid nH cb cs rest W o
    · rw [if_neg hskip]
      rcases addFold_coins_cases txid nH cb cs rest
        (W.addCoin ⟨txid, oi.1⟩ (mkCoin oi.2 nH cb cs)) o with h | h
      · rw [h]
        simp only [CoinsView.addCoin]
        by_cases ho : o = OutPoint.mk txid oi.1
        · rw [if_pos ho]
          exact Or.inr ⟨oi.2, rfl⟩
        · rw [if_neg ho]
          exact Or.inl rfl
      · exact Or.inr h

/-- `UpdateCoins` (without zerocoin spends): every resulting coin is an old
coin or has the block's creation height, and outpoints of other
transactions that were absent stay absent. -/
theorem updateCoins_preserves (tx : Tx) (V : CoinsView) (nH : Int)
    (hzc : tx.hasZerocoinSpendInputs = false)
    (hnodup : tx.isCoinBase = false → (tx.vin.map (fun i => i.prevout)).Nodup) :
    (∀ o c, (updateCoins tx V nH).1.coins o = some c →
      V.coins o = some c ∨ c.nHeight = nH) ∧
    (∀ o, o.hash ≠ tx.txid → V.coins o = none → (updateCoins tx V nH).1.coins o = none) := by
  by_cases hcb : tx.isCoinBase = true
  · have hV1 : (updateCoins tx V nH).1 = addCoins V tx nH := by
      unfold updateCoins
      rw [if_neg (by simp [hcb])]
    constructor
    · intro o c hc
      rw [hV1] at hc
      unfold addCoins at hc
      rcases addFold_coins_cases tx.txid nH tx.isCoinBase tx.isCoinStake
        tx.vout.enum V o with h | ⟨out, h⟩
      · exact Or.inl (by rw [← h, hc])
      · rw [h] at hc
        injection hc with hc
        exact Or.inr (by rw [← hc]; rfl)
    · intro o hho hnone
      rw [hV1]
      unfold addCoins
      rw [addFold_coins_other _ _ _ _ _ _ _ (fun oi _ => Or.inl (by
        intro heq
        exact hho (by rw [heq])))]
      exact hnone
  · have hcb' : tx.isCoinBase = false := by simpa using hcb
    obtain ⟨_, hV1⟩ := updateCoins_nonCb tx V nH hcb' hzc (hnodup hcb')
    constructor
    · intro o c hc
      rw [hV1] at hc
      unfold addCoins at hc
      rcases addFold_coins_cases tx.txid nH tx.isCoinBase tx.isCoinStake
        tx.vout.enum (spentView tx V) o with h | ⟨out, h⟩
      · rw [h] at hc
        simp only [spentView] at hc
        split at hc
        · exact absurd hc (by simp)
        · exact Or.inl hc
      · rw [h] at hc
        injection hc with hc
        exact Or.inr (by rw [← hc]; rfl)
    · intro o hho hnone
      rw [hV1]
      unfold addCoins
      rw [addFold_coins_other _ _ _ _ _ _ _ (fun oi _ => Or.inl (by
        intro heq
        exact hho (by rw [heq])))]
      simp only [spentView]
      split
      · rfl
      · exact hnone

/-- Unfolding of `disconnectTxs` at a cons cell. -/
theorem disconnectTxs_cons (maxOut : Nat) (undos : List TxUndo) (i : Nat) (tx : Tx)
    (rest : List (Nat × Tx)) (v : CoinsView) (clean : Bool) :
    disconnectTxs maxOut undos ((i, tx) :: rest) v clean =
      (if tx.isCoinBase || tx.hasZerocoinSpendInputs then
        disconnectTxs maxOut undos rest
          (disconnectOutputs tx.txid tx.vout.enum v clean).1
          (disconnectOutputs tx.txid tx.vout.enum v clean).2
      else if i = 0 then .error ()
      else match undos.get? (i - 1) with
        | none => .error ()
        | some txundo =>
          if txundo.length ≠ tx.vin.length then .error ()
          else match restoreInputs maxOut ((tx.vin.zip txundo).reverse)
              (disconnectOutputs tx.txid tx.vout.enum v clean).1
              (disconnectOutputs tx.txid tx.vout.enum v clean).2 with
            | .error _ => .error ()
            | .ok (v2, clean2) => disconnectTxs maxOut undos rest v2 clean2) := rfl

/-- Processing a concatenation of transaction groups in
`DisconnectBlock`'s loop is processing the groups in order. -/
theorem disconnectTxs_append (maxOut : Nat) (undos : List TxUndo) :
    ∀ (l1 l2 : List (Nat × Tx)) (V : CoinsView) (clean : Bool),
    disconnectTxs maxOut undos (l1 ++ l2) V clean =
      (match disconnectTxs maxOut undos l1 V clean with
       | .error e => .error e
       | .ok (v, c) => disconnectTxs maxOut undos l2 v c)
  | [], l2, V, clean => rfl
  | (i, tx) :: l1, l2, V, clean => by
    rw [List.cons_append, disconnectTxs_cons, disconnectTxs_cons]
    by_cases hcb : (tx.isCoinBase || tx.hasZerocoinSpendInputs) = true
    · rw [if_pos hcb, if_pos hcb]
      exact disconnectTxs_append maxOut undos l1 l2 _ _
    · rw [if_neg hcb, if_neg hcb]
      split
      · rfl
      · split
        · rfl
        · split
          · rfl
          · split
            · rfl
            · exact disconnectTxs_append maxOut undos l1 l2 _ _

/-- Unfolding of `connectTxLoop` at a cons cell. -/
theorem connectTxLoop_cons (params : ConsensusParams) (nHeight : Int) (tx : Tx)
    (rest : List Tx) (i : Nat) (acc : ConnAcc) :
    connectTxLoop params nHeight (tx :: rest) i acc =
      (if tx.hasZerocoinSpendInputs then .error "zerocoin-out-of-scope"
       else
         match (if !tx.isCoinBase then
             (if !(acc.view.haveInputs tx) then
               (.error "bad-txns-inputs-missingorspent" : Except String Unit)
              else checkInputsNonScript params tx acc.view nHeight)
           else .ok ()) with
         | .error e => .error e
         | .ok _ =>
           connectTxLoop params nHeight rest (i + 1)
             { view := (updateCoins tx acc.view nHeight).1,
               nFees := if !tx.isCoinBase && !tx.isCoinStake then
                   acc.nFees + (acc.view.getValueIn tx - tx.getValueOut) else acc.nFees,
               nValueIn := if !tx.isCoinBase then
                   acc.nValueIn + acc.view.getValueIn tx else acc.nValueIn,
               nValueOut := acc.nValueOut + tx.getValueOut,
               undos := if i == 0 then acc.undos
                 else acc.undos ++ [(updateCoins tx acc.view nHeight).2] }) := rfl

/-- `connectTxLoop` only appends to the undo list. -/
theorem connectTxLoop_undos (params : ConsensusParams) (nHeight : Int) :
    ∀ (txs : List Tx) (i0 : Nat) (acc accOut : ConnAcc),
    connectTxLoop params nHeight txs i0 acc = .ok accOut →
    ∃ tail, accOut.undos = acc.undos ++ tail
  | [], _, acc, accOut, h => by
    injection h with h
    exact ⟨[], by rw [← h]; simp⟩
  | tx :: rest, i0, acc, accOut, h => by
    rw [connectTxLoop_cons] at h
    by_cases hzc : tx.hasZerocoinSpendInputs = true
    · rw [if_pos hzc] at h
      exact absurd h (by simp)
    · rw [if_neg hzc] at h
      rcases hio : (if !tx.isCoinBase then
          (if !(acc.view.haveInputs tx) then
            (.error "bad-txns-inputs-missingorspent" : Except String Unit)
           else checkInputsNonScript params tx acc.view nHeight)
        else .ok ()) with e | u
      · rw [hio] at h
        exact absurd h (by simp)
      · rw [hio] at h
        obtain ⟨tail, htail⟩ := connectTxLoop_undos params nHeight rest (i0 + 1) _ accOut h
        by_cases hi : (i0 == 0) = true
        · refine ⟨tail, ?_⟩
          rw [htail]
          show (if (i0 == 0) = true then acc.undos
            else acc.undos ++ [(updateCoins tx acc.view nHeight).2]) ++ tail = acc.undos ++ tail
          rw [if_pos hi]
        · refine ⟨(updateCoins tx acc.view nHeight).2 :: tail, ?_⟩
          rw [htail]
          show (if (i0 == 0) = true then acc.undos
            else acc.undos ++ [(updateCoins tx acc.view nHeight).2]) ++ tail
            = acc.undos ++ ((updateCoins tx acc.view nHeight).2 :: tail)
          rw [if_neg hi, List.append_assoc]
          rfl

/-- `ApplyTxInUndo` only reads and writes the coin map: it commutes with
`SetBestBlock`. -/
theorem applyTxInUndo_some (cu : Coin) (view : CoinsView) (o : OutPoint) (m : Nat) :
    applyTxInUndo (some cu) view o m
      = (match (if cu.nHeight = 0 then
            match accessByTxid view o.hash m with
            | some alt => some ⟨cu.out, alt.nHeight, alt.fCoinBase, alt.fCoinStake⟩
            | none => none
          else some cu) with
        | none => (.DISCONNECT_FAILED, view)
        | some c => ((if !(view.haveCoin o) then DisconnectResult.DISCONNECT_OK
            else .DISCONNECT_UNCLEAN), view.addCoin o c)) := rfl

theorem applyTxInUndo_setBestBlock (u : Option Coin) (W : CoinsView) (hb : Nat)
    (o : OutPoint) (m : Nat) :
    applyTxInUndo u (W.setBestBlock hb) o m
      = ((applyTxInUndo u W o m).1, (applyTxInUndo u W o m).2.setBestBlock hb) := by
  rcases u with _ | cu
  · rfl
  · rw [applyTxInUndo_some, applyTxInUndo_some]
    rw [show accessByTxid (W.setBestBlock hb) o.hash m = accessByTxid W o.hash m from rfl]
    rw [show (W.setBestBlock hb).haveCoin o = W.haveCoin o from rfl]
    by_cases hz : cu.nHeight = 0
    · rw [if_pos hz]
      rcases haa : accessByTxid W o.hash m with _ | alt
      · rfl
      · rfl
    · rw [if_neg hz]
      rfl

/-- Unfolding of `disconnectOutputs` at a cons cell. -/
theorem disconnectOutputs_cons (txid o : Nat) (out : CTxOut) (rest : List (Nat × CTxOut))
    (v : CoinsView) (clean : Bool) :
    disconnectOutputs txid ((o, out) :: rest) v clean
      = if out.isUnspendable || out.isZerocoinMint then disconnectOutputs txid rest v clean
        else disconnectOutputs txid rest (v.spendCoin ⟨txid, o⟩).1
          (clean && decide (out
            = (((v.spendCoin ⟨txid, o⟩).2).map (fun c => c.out)).getD defaultTxOut)) := rfl

/-- The output-removal loop only touches the coin map: it commutes with
`SetBestBlock`. -/
theorem disconnectOutputs_setBestBlock (txid : Nat) (hb : Nat) :
    ∀ (l : List (Nat × CTxOut)) (W : CoinsView) (clean : Bool),
    disconnectOutputs txid l (W.setBestBlock hb) clean
      = ((disconnectOutputs txid l W clean).1.setBestBlock hb,
         (disconnectOutputs txid l W clean).2)
  | [], W, clean => rfl
  | (o, out) :: rest, W, clean => by
    rw [disconnectOutputs_cons, disconnectOutputs_cons]
    by_cases hsk : (out.isUnspendable || out.isZerocoinMint) = true
    · rw [if_pos hsk, if_pos hsk]
      exact disconnectOutputs_setBestBlock txid hb rest W clean
    · rw [if_neg hsk, if_neg hsk]
      have h1 : ((W.setBestBlock hb).spendCoin ⟨txid, o⟩).1
          = (W.spendCoin ⟨txid, o⟩).1.setBestBlock hb := rfl
      have h2 : ((W.setBestBlock hb).spendCoin ⟨txid, o⟩).2
          = (W.spendCoin ⟨txid, o⟩).2 := rfl
      rw [h1, h2]
      exact disconnectOutputs_setBestBlock txid hb rest _ _

/-- The input-restoration loop only touches the coin map: it commutes with
`SetBestBlock`. -/
theorem restoreInputs_setBestBlock (m : Nat) (hb : Nat) :
    ∀ (l : List (CTxIn × Option Coin)) (W : CoinsView) (clean : Bool),
    restoreInputs m l (W.setBestBlock hb) clean
      = (restoreInputs m l W clean).map (fun p => (p.1.setBestBlock hb, p.2))
  | [], W, clean => rfl
  | (txin, u) :: rest, W, clean => by
    unfold restoreInputs
    rw [applyTxInUndo_setBestBlock u W hb txin.prevout m]
    rcases happ : applyTxInUndo u W txin.prevout m with ⟨res, v'⟩
    cases res
    · exact restoreInputs_setBestBlock m hb rest v' _
    · exact restoreInputs_setBestBlock m hb rest v' _
    · rfl

/-- The disconnect transaction loop only touches the coin map: it commutes
with `SetBestBlock`. -/
theorem disconnectTxs_setBestBlock (m : Nat) (undos : List TxUndo) (hb : Nat) :
    ∀ (l : List (Nat × Tx)) (W : CoinsView) (clean : Bool),
    disconnectTxs m undos l (W.setBestBlock hb) clean
      = (disconnectTxs m undos l W clean).map (fun p => (p.1.setBestBlock hb, p.2))
  | [], W, clean => rfl
  | (i, tx) :: rest, W, clean => by
    rw [disconnectTxs_cons, disconnectTxs_cons]
    have hd := disconnectOutputs_setBestBlock tx.txid hb tx.vout.enum W clean
    by_cases hcb : (tx.isCoinBase || tx.hasZerocoinSpendInputs) = true
    · rw [if_pos hcb, if_pos hcb, hd]
      exact disconnectTxs_setBestBlock m undos hb rest
        (disconnectOutputs tx.txid tx.vout.enum W clean).1
        (disconnectOutputs tx.txid tx.vout.enum W clean).2
    · rw [if_neg hcb, if_neg hcb]
      by_cases hi : i = 0
      · rw [if_pos hi, if_pos hi]
        rfl
      · rw [if_neg hi, if_neg hi]
        split
        · rfl
        · rename_i txundo heq
          split
          · rfl
          · have hsc : restoreInputs m ((tx.vin.zip txundo).reverse)
                (disconnectOutputs tx.txid tx.vout.enum (W.setBestBlock hb) clean).1
                (disconnectOutputs tx.txid tx.vout.enum (W.setBestBlock hb) clean).2
                = (restoreInputs m ((tx.vin.zip txundo).reverse)
                    (disconnectOutputs tx.txid tx.vout.enum W clean).1
                    (disconnectOutputs tx.txid tx.vout.enum W clean).2).map
                  (fun p => (p.1.setBestBlock hb, p.2)) := by
              rw [hd]
              exact restoreInputs_setBestBlock m hb _ _ _
            rw [hsc]
            rcases hres : restoreInputs m ((tx.vin.zip txundo).reverse)
                (disconnectOutputs tx.txid tx.vout.enum W clean).1
                (disconnectOutputs tx.txid tx.vout.enum W clean).2 with e | p
            · rfl
            · exact disconnectTxs_setBestBlock m undos hb rest p.1 p.2

/-- Lookup at the position right after a prefix of known length. -/
theorem get_append_length {α : Type} (a : α) :
    ∀ (l1 l2 : List α), (l1 ++ a :: l2).get? l1.length = some a
  | [], _ => rfl
  | _ :: l1, l2 => get_append_length a l1 l2

/-- One disconnect step for a coinbase (or zerocoin-spend) transaction:
only the outputs are removed. -/
theorem disconnectTxs_single_cb (maxOut : Nat) (undos : List TxUndo) (i : Nat) (tx : Tx)
    (v : CoinsView) (clean : Bool)
    (hcb : (tx.isCoinBase || tx.hasZerocoinSpendInputs) = true)
    (w : CoinsView) (c : Bool)
    (hd : disconnectOutputs tx.txid tx.vout.enum v clean = (w, c)) :
    disconnectTxs maxOut undos [(i, tx)] v clean = .ok (w, c) := by
  rw [disconnectTxs_cons, if_pos hcb, hd]
  rfl

/-- One disconnect step for a regular transaction: outputs removed, then
the inputs restored from the transaction's undo record. -/
theorem disconnectTxs_single_nonCb (maxOut : Nat) (undos : List TxUndo) (i : Nat) (tx : Tx)
    (v : CoinsView) (clean : Bool) (txundo : TxUndo)
    (hcb : tx.isCoinBase = false) (hzc : tx.hasZerocoinSpendInputs = false)
    (hi : i ≠ 0) (hget : undos.get? (i - 1) = some txundo)
    (hlen : txundo.length = tx.vin.length)
    (w : CoinsView) (c : Bool)
    (hr : restoreInputs maxOut ((tx.vin.zip txundo).reverse)
      (disconnectOutputs tx.txid tx.vout.enum v clean).1
      (disconnectOutputs tx.txid tx.vout.enum v clean).2 = .ok (w, c)) :
    disconnectTxs maxOut undos [(i, tx)] v clean = .ok (w, c) := by
  rw [disconnectTxs_cons, if_neg (by simp [hcb, hzc]), if_neg hi, hget]
  show (if txundo.length ≠ tx.vin.length then (.error () : Except Unit (CoinsView × Bool))
    else match restoreInputs maxOut ((tx.vin.zip txundo).reverse)
        (disconnectOutputs tx.txid tx.vout.enum v clean).1
        (disconnectOutputs tx.txid tx.vout.enum v clean).2 with
      | .error _ => .error ()
      | .ok (v2, clean2) => disconnectTxs maxOut undos [] v2 clean2) = .ok (w, c)
  rw [if_neg (by simp [hlen]), hr]
  rfl

/-- Success of `connectTxLoop` determines the length of the undo list: one
record per transaction except the block's first. -/
theorem connectTxLoop_undos_length (params : ConsensusParams) (nHeight : Int) :
    ∀ (txs : List Tx) (i0 : Nat) (acc accOut : ConnAcc),
    connectTxLoop params nHeight txs i0 acc = .ok accOut →
    accOut.undos.length + (if i0 = 0 ∧ txs ≠ [] then 1 else 0)
      = acc.undos.length + txs.length
  | [], i0, acc, accOut, h => by
    injection h with h
    rw [← h, if_neg (by simp)]
    rfl
  | tx :: rest, i0, acc, accOut, h => by
    rw [connectTxLoop_cons] at h
    by_cases hzc : tx.hasZerocoinSpendInputs = true
    · rw [if_pos hzc] at h
      exact absurd h (by simp)
    · rw [if_neg hzc] at h
      rcases hio : (if !tx.isCoinBase then
          (if !(acc.view.haveInputs tx) then
            (.error "bad-txns-inputs-missingorspent" : Except String Unit)
           else checkInputsNonScript params tx acc.view nHeight)
        else .ok ()) with e | u
      · rw [hio] at h
        exact absurd (show (Except.error e : Except String ConnAcc) = .ok accOut from h)
          (by simp)
      · rw [hio] at h
        have h2 : connectTxLoop params nHeight rest (i0 + 1)
            { view := (updateCoins tx acc.view nHeight).1,
              nFees := if !tx.isCoinBase && !tx.isCoinStake then
                  acc.nFees + (acc.view.getValueIn tx - tx.getValueOut) else acc.nFees,
              nValueIn := if !tx.isCoinBase then
                  acc.nValueIn + acc.view.getValueIn tx else acc.nValueIn,
              nValueOut := acc.nValueOut + tx.getValueOut,
              undos := if i0 == 0 then acc.undos
                else acc.undos ++ [(updateCoins tx acc.view nHeight).2] } = .ok accOut := h
        have ih := connectTxLoop_undos_length params nHeight rest (i0 + 1) _ accOut h2
        have hUlen : (if (i0 == 0) = true then acc.undos
            else acc.undos ++ [(updateCoins tx acc.view nHeight).2]).length
            = acc.undos.length + (if i0 = 0 then 0 else 1) := by
          by_cases hi : (i0 == 0) = true
          · rw [if_pos hi, if_pos (by simpa using hi)]
            omega
          · rw [if_neg hi, if_neg (by simpa using hi), List.length_append,
              List.length_singleton]
        have ih' : accOut.undos.length + (if i0 + 1 = 0 ∧ rest ≠ [] then 1 else 0)
            = acc.undos.length + (if i0 = 0 then 0 else 1) + rest.length := by
          rw [← hUlen]
          exact ih
        rw [if_neg (by simp)] at ih'
        rcases Nat.eq_zero_or_pos i0 with h0 | h0
        · rw [if_pos ⟨h0, by simp⟩]
          rw [if_pos h0] at ih'
          simp only [List.length_cons]
          omega
        · rw [if_neg (by rintro ⟨h0', _⟩; omega)]
          rw [if_neg (by omega)] at ih'
          simp only [List.length_cons]
          omega

/-- Round trip of the transaction loops: disconnecting the enumerated
transactions in reverse order from the view `connectTxLoop` produced, with
the undo records it collected, restores the starting view's coin map. -/
theorem connectTxLoop_roundtrip (params : ConsensusParams) (nHeight : Int) (maxOut : Nat)
    (hnz : nHeight ≠ 0) :
    ∀ (txs : List Tx) (i0 : Nat) (acc accOut : ConnAcc) (clean : Bool),
    connectTxLoop params nHeight txs i0 acc = .ok accOut →
    (i0 = 0 → ∀ t ∈ txs.take 1, t.isCoinBase = true) →
    (∀ t ∈ txs, t.isCoinBase = false → (t.vin.map (fun i => i.prevout)).Nodup) →
    (∀ t ∈ txs, ∀ i ∈ t.vin, i.prevout.hash ≠ t.txid) →
    ((txs.map Tx.txid).Nodup) →
    (∀ o c, acc.view.coins o = some c → c.nHeight ≠ 0) →
    (∀ t ∈ txs, ∀ j, acc.view.coins ⟨t.txid, j⟩ = none) →
    acc.undos.length = i0 - 1 →
    disconnectTxs maxOut accOut.undos ((List.enumFrom i0 txs).reverse) accOut.view clean
      = .ok (acc.view, clean)
  | [], i0, acc, accOut, clean, h, _, _, _, _, _, _, _ => by
    injection h with h
    rw [← h]
    rfl
  | tx :: rest, i0, acc, accOut, clean, h, hcb0, hvind, hself, htxid, hhei, hfresh, hulen => by
    rw [connectTxLoop_cons] at h
    by_cases hzc : tx.hasZerocoinSpendInputs = true
    · rw [if_pos hzc] at h
      exact absurd h (by simp)
    · rw [if_neg hzc] at h
      have hzc' : tx.hasZerocoinSpendInputs = false := by simpa using hzc
      rcases hio : (if !tx.isCoinBase then
          (if !(acc.view.haveInputs tx) then
            (.error "bad-txns-inputs-missingorspent" : Except String Unit)
           else checkInputsNonScript params tx acc.view nHeight)
        else .ok ()) with e | u
      · rw [hio] at h
        exact absurd (show (Except.error e : Except String ConnAcc) = .ok accOut from h)
          (by simp)
      · rw [hio] at h
        have h2 : connectTxLoop params nHeight rest (i0 + 1)
            { view := (updateCoins tx acc.view nHeight).1,
              nFees := if !tx.isCoinBase && !tx.isCoinStake then
                  acc.nFees + (acc.view.getValueIn tx - tx.getValueOut) else acc.nFees,
              nValueIn := if !tx.isCoinBase then
                  acc.nValueIn + acc.view.getValueIn tx else acc.nValueIn,
              nValueOut := acc.nValueOut + tx.getValueOut,
              undos := if i0 == 0 then acc.undos
                else acc.undos ++ [(updateCoins tx acc.view nHeight).2] } = .ok accOut := h
        have hnodup_tx : tx.isCoinBase = false → (tx.vin.map (fun i => i.prevout)).Nodup :=
          fun hcbf => hvind tx (List.mem_cons_self tx rest) hcbf
        have hprs := updateCoins_preserves tx acc.view nHeight hzc' hnodup_tx
        rw [List.map_cons] at htxid
        obtain ⟨hnotin, htxid2⟩ := List.nodup_cons.mp htxid
        have hhei1 : ∀ o c, (updateCoins tx acc.view nHeight).1.coins o = some c →
            c.nHeight ≠ 0 := by
          intro o c hc
          rcases hprs.1 o c hc with hold | hnew
          · exact hhei o c hold
          · rw [hnew]
            exact hnz
        have hfresh1 : ∀ t ∈ rest, ∀ j,
            (updateCoins tx acc.view nHeight).1.coins ⟨t.txid, j⟩ = none := by
          intro t ht j
          refine hprs.2 ⟨t.txid, j⟩ ?_ (hfresh t (List.mem_cons_of_mem tx ht) j)
          intro heq
          exact hnotin (List.mem_map.mpr ⟨t, ht, heq⟩)
        have hulen1 : (if (i0 == 0) = true then acc.undos
            else acc.undos ++ [(updateCoins tx acc.view nHeight).2]).length
            = (i0 + 1) - 1 := by
          by_cases hi : (i0 == 0) = true
          · rw [if_pos hi]
            have h0 : i0 = 0 := by simpa using hi
            rw [hulen]
            omega
          · have h0 : i0 ≠ 0 := by simpa using hi
            rw [if_neg hi, List.length_append, hulen, List.length_singleton]
            omega
        have IH := connectTxLoop_roundtrip params nHeight maxOut hnz rest (i0 + 1)
          { view := (updateCoins tx acc.view nHeight).1,
            nFees := if !tx.isCoinBase && !tx.isCoinStake then
                acc.nFees + (acc.view.getValueIn tx - tx.getValueOut) else acc.nFees,
            nValueIn := if !tx.isCoinBase then
                acc.nValueIn + acc.view.getValueIn tx else acc.nValueIn,
            nValueOut := acc.nValueOut + tx.getValueOut,
            undos := if i0 == 0 then acc.undos
              else acc.undos ++ [(updateCoins tx acc.view nHeight).2] } accOut clean h2
          (fun habs => absurd habs (by omega))
          (fun t ht => hvind t (List.mem_cons_of_mem tx ht))
          (fun t ht => hself t (List.mem_cons_of_mem tx ht))
          htxid2 hhei1 hfresh1 hulen1
        have henumr : List.enumFrom i0 (tx :: rest)
            = (i0, tx) :: List.enumFrom (i0 + 1) rest := rfl
        rw [henumr, List.reverse_cons, disconnectTxs_append, IH]
        show disconnectTxs maxOut accOut.undos [(i0, tx)]
            (updateCoins tx acc.view nHeight).1 clean = .ok (acc.view, clean)
        by_cases hcb : tx.isCoinBase = true
        · exact disconnectTxs_single_cb maxOut accOut.undos i0 tx
            (updateCoins tx acc.view nHeight).1 clean (by simp [hcb]) acc.view clean
            (updateCoins_coinbase_roundtrip tx acc.view nHeight hcb
              (hfresh tx (List.mem_cons_self tx rest)) clean)
        · have hcb2 : tx.isCoinBase = false := by simpa using hcb
          have hi0 : i0 ≠ 0 := by
            intro h0
            have hht := hcb0 h0 tx (by simp)
            rw [hcb2] at hht
            exact absurd hht (by simp)
          have hhi : acc.view.haveInputs tx = true := by
            by_contra hno
            have hf : acc.view.haveInputs tx = false := by simpa using hno
            rw [if_pos (by simp [hcb2]), if_pos (by simp [hf])] at hio
            exact absurd hio (by simp)
          have hpres : ∀ i ∈ tx.vin, (acc.view.coins i.prevout).isSome := by
            intro i hiv
            have hx := List.all_eq_true.mp hhi i hiv
            simpa [CoinsView.haveCoin] using hx
          obtain ⟨hulen_tx, hdclean, hrt⟩ := updateCoins_roundtrip maxOut tx acc.view nHeight
            hcb2 hzc' hnz (hnodup_tx hcb2) (hself tx (List.mem_cons_self tx rest)) hpres hhei
            (hfresh tx (List.mem_cons_self tx rest)) clean
          obtain ⟨tail, htail⟩ := connectTxLoop_undos params nHeight rest (i0 + 1) _ accOut h2
          have htail2 : accOut.undos
              = (acc.undos ++ [(updateCoins tx acc.view nHeight).2]) ++ tail := by
            rw [htail]
            show (if (i0 == 0) = true then acc.undos
              else acc.undos ++ [(updateCoins tx acc.view nHeight).2]) ++ tail
              = (acc.undos ++ [(updateCoins tx acc.view nHeight).2]) ++ tail
            rw [if_neg (by simpa using hi0)]
          have hget : accOut.undos.get? (i0 - 1)
              = some (updateCoins tx acc.view nHeight).2 := by
            rw [htail2, List.append_assoc, List.singleton_append, ← hulen]
            exact get_append_length _ acc.undos tail
          exact disconnectTxs_single_nonCb maxOut accOut.undos i0 tx
            (updateCoins tx acc.view nHeight).1 clean (updateCoins tx acc.view nHeight).2
            hcb2 hzc' hi0 hget hulen_tx acc.view clean (by rw [hdclean]; exact hrt)

/-- C2: For every valid non-genesis block `B` and coin view `V` such that
`ConnectBlock(B, V)` succeeds producing view `V'` and undo data `undos`,
`DisconnectBlock(B, V')` returns `DISCONNECT_OK` and yields a view equal to
`V`: the same set of unspent coin records (spent inputs restored from the
undo records, `B`'s outputs removed) and the best-block pointer rewound to
`B`'s parent.  Validity of the block and the view is expressed by the
hypotheses: the block is not the genesis block, its height is nonzero, its
first transaction is a coinbase, it is nonempty, input lists have no
duplicate prevouts, no transaction spends outputs of itself or of another
transaction with the same id, transaction ids are distinct, all coins of
`V` sit at nonzero heights, and no output of the block already sits
unspent in `V`. -/
theorem connect_disconnect_roundtrip
    (params : ConsensusParams) (net : Network) (zcV2 : Int) (isPoSActive : Bool)
    (block : Block) (nHeight : Int) (prevHash : Nat) (view : CoinsView)
    (maxOut : Nat) (V' : CoinsView) (undos : List TxUndo)
    (hconn : connectBlock params net zcV2 isPoSActive block nHeight prevHash view
      = .ok (V', undos))
    (hng : block.hashBlock ≠ params.hashGenesisBlock)
    (hnz : nHeight ≠ 0)
    (hcb0 : ∀ t ∈ block.vtx.take 1, t.isCoinBase = true)
    (hvtx : block.vtx ≠ [])
    (hvind : ∀ t ∈ block.vtx, t.isCoinBase = false →
      (t.vin.map (fun i => i.prevout)).Nodup)
    (hself : ∀ t ∈ block.vtx, ∀ i ∈ t.vin, i.prevout.hash ≠ t.txid)
    (htxid : (block.vtx.map Tx.txid).Nodup)
    (hhei : ∀ o c, view.coins o = some c → c.nHeight ≠ 0)
    (hfresh : ∀ t ∈ block.vtx, ∀ j, view.coins ⟨t.txid, j⟩ = none) :
    disconnectBlock block block.hashBlock prevHash undos V' maxOut
      = (.DISCONNECT_OK, view) := by
  unfold connectBlock at hconn
  by_cases hprev : prevHash ≠ view.bestBlock
  · rw [if_pos hprev] at hconn
    exact absurd hconn (by simp)
  · rw [if_neg hprev] at hconn
    have hprev2 : prevHash = view.bestBlock := by simpa using hprev
    rw [if_neg hng] at hconn
    by_cases hposA : (!isPoSActive && block.isProofOfStake) = true
    · rw [if_pos hposA] at hconn
      exact absurd hconn (by simp)
    · rw [if_neg hposA] at hconn
      by_cases hposB : (isPoSActive && block.isProofOfWork) = true
      · rw [if_pos hposB] at hconn
        exact absurd hconn (by simp)
      · rw [if_neg hposB] at hconn
        rcases hloop : connectTxLoop params nHeight block.vtx 0
            { view := view, nFees := 0, nValueIn := 0, nValueOut := 0,
              undos := [] } with e | acc
        · rw [hloop] at hconn
          exact absurd (show (Except.error e : Except String (CoinsView × List TxUndo))
            = .ok (V', undos) from hconn) (by simp)
        · rw [hloop] at hconn
          have hconn2 : (if (!(IsBlockValueValid
                (GetBlockValue net zcV2 nHeight
                  + (if block.isProofOfWork then acc.nFees else 0))
                ((acc.nValueOut - acc.nValueIn) + acc.nFees))) = true
              then (.error "bad-cb-amount" : Except String (CoinsView × List TxUndo))
              else .ok (acc.view.setBestBlock block.hashBlock, acc.undos))
              = .ok (V', undos) := hconn
          by_cases hmint : ((!(IsBlockValueValid
              (GetBlockValue net zcV2 nHeight
                + (if block.isProofOfWork then acc.nFees else 0))
              ((acc.nValueOut - acc.nValueIn) + acc.nFees))) = true)
          · rw [if_pos hmint] at hconn2
            exact absurd hconn2 (by simp)
          · rw [if_neg hmint] at hconn2
            injection hconn2 with hpair
            have hV : V' = acc.view.setBestBlock block.hashBlock :=
              (congrArg Prod.fst hpair).symm
            have hundos : undos = acc.undos := (congrArg Prod.snd hpair).symm
            -- the length of the undo list
            have hlen0 := connectTxLoop_undos_length params nHeight block.vtx 0
              { view := view, nFees := 0, nValueIn := 0, nValueOut := 0, undos := [] }
              acc hloop
            rw [if_pos ⟨rfl, hvtx⟩] at hlen0
            have hlen1 : acc.undos.length + 1 = 0 + block.vtx.length := hlen0
            -- the round trip over the transaction loop
            have hgrand := connectTxLoop_roundtrip params nHeight maxOut hnz block.vtx 0
              { view := view, nFees := 0, nValueIn := 0, nValueOut := 0, undos := [] }
              acc true hloop (fun _ => hcb0) hvind hself htxid hhei hfresh rfl
            have hdisc : disconnectTxs maxOut acc.undos block.vtx.enum.reverse
                (acc.view.setBestBlock block.hashBlock) true
                = .ok (view.setBestBlock block.hashBlock, true) := by
              rw [disconnectTxs_setBestBlock maxOut acc.undos block.hashBlock
                block.vtx.enum.reverse acc.view true]
              rw [show block.vtx.enum = List.enumFrom 0 block.vtx from rfl, hgrand]
              rfl
            rw [hundos, hV]
            unfold disconnectBlock
            rw [if_neg (fun hne => hne rfl), if_neg (by omega), hdisc, hprev2]
            rfl

/-- A 100 PIV coin at height 1 (neither coinbase nor coinstake) sitting at
outpoint `(3, 0)`. -/
def wC2Coin : Coin := ⟨⟨100 * COIN, 1, false, false⟩, 1, false, false⟩

/-- A view holding just `wC2Coin`, best block 10. -/
def wC2View : CoinsView :=
  { coins := fun o => if o = ⟨3, 0⟩ then some wC2Coin else none, bestBlock := 10 }

/-- Coinbase of the round-trip witness block: pays 260 PIV (250 reward plus
10 fees). -/
def wC2Cb : Tx :=
  { txid := 20, vin := [], vout := [⟨260 * COIN, 1, false, false⟩],
    isCoinBase := true, isCoinStake := false, hasZerocoinSpendInputs := false }

/-- Spender of the round-trip witness block: spends `(3, 0)` (100 PIV) into
a 90 PIV output, paying 10 PIV of fees. -/
def wC2Sp : Tx :=
  { txid := 21, vin := [⟨⟨3, 0⟩⟩], vout := [⟨90 * COIN, 1, false, false⟩],
    isCoinBase := false, isCoinStake := false, hasZerocoinSpendInputs := false }

/-- The round-trip witness block: a proof-of-work block at height 200. -/
def wC2Block : Block :=
  { hashBlock := 11, hashPrevBlock := 10, vtx := [wC2Cb, wC2Sp],
    isProofOfStake := false }

/-- The view and undo data produced by connecting `wC2Block` to `wC2View`
on regtest. -/
def wC2Res : CoinsView × List TxUndo :=
  match connectBlock wParams .REGTEST 100 false wC2Block 200 10 wC2View with
  | .ok p => p
  | .error _ => (emptyView, [])

/-- Witness: connecting the concrete two-transaction block `wC2Block` to
`wC2View` and disconnecting it again restores `wC2View` with
`DISCONNECT_OK`. -/
theorem connect_disconnect_roundtrip_witness :
    disconnectBlock wC2Block wC2Block.hashBlock 10 wC2Res.2 wC2Res.1 30000
      = (.DISCONNECT_OK, wC2View) :=
  connect_disconnect_roundtrip wParams .REGTEST 100 false wC2Block 200 10 wC2View
    30000 wC2Res.1 wC2Res.2 (by rfl) (by decide) (by decide) (by decide) (by decide)
    (by decide) (by decide) (by decide)
    (by
      intro o c hc
      have hc2 : (if o = ⟨3, 0⟩ then some wC2Coin else none) = some c := hc
      by_cases ho : o = (⟨3, 0⟩ : OutPoint)
      · rw [if_pos ho] at hc2
        injection hc2 with hc2
        rw [← hc2]
        decide
      · rw [if_neg ho] at hc2
        exact absurd hc2 (by simp))
    (by
      intro t ht j
      show (if (⟨t.txid, j⟩ : OutPoint) = ⟨3, 0⟩ then some wC2Coin else none) = none
      have ht2 : t = wC2Cb ∨ t = wC2Sp := by simpa [wC2Block] using ht
      rcases ht2 with rfl | rfl
      · rw [if_neg (by simp [wC2Cb])]
      · rw [if_neg (by simp [wC2Sp])])
